import Mathlib

/-!
Verification development for the sparse voxel storage engine
(positions.h, set_views.h, chunk_map.h, bucket_map.h, layered_map_algo.h).

Each C++ component is shallowly embedded as executable Lean definitions:
unsigned 32-bit machine integers become `Nat` with explicit `% 2^32` where
the C++ arithmetic can wrap, `std::map`s become association lists, the
packed bucket arrays become lists of 64 pool indices, and the voxel-set
morphology of the CECD algorithm acts on `Finset`s of positions.
-/

set_option maxRecDepth 8192

namespace VoxelSpec

/-- Embedding of `morton_encode` (positions.h): the loop over the ten low
bits of each coordinate or-accumulates bit `b` of `x`, `y`, `z` into output
bit positions `3b`, `3b+1`, `3b+2`. -/
def mortonEncode (x y z : Nat) : Nat :=
  (List.range 10).foldl
    (fun out bit =>
      ((out ||| (((x >>> bit) &&& 1) <<< (3 * bit)))
         ||| (((y >>> bit) &&& 1) <<< (3 * bit + 1)))
         ||| (((z >>> bit) &&& 1) <<< (3 * bit + 2)))
    0

/-- Embedding of `morton_decode` (positions.h): recovers the three
coordinates from bits `3b`, `3b+1`, `3b+2` of the code. -/
def mortonDecode (code : Nat) : Nat × Nat × Nat :=
  (List.range 10).foldl
    (fun p bit =>
      (p.1 ||| (((code >>> (3 * bit)) &&& 1) <<< bit),
       p.2.1 ||| (((code >>> (3 * bit + 1)) &&& 1) <<< bit),
       p.2.2 ||| (((code >>> (3 * bit + 2)) &&& 1) <<< bit)))
    (0, 0, 0)

/-- A position: triple of unsigned 32-bit coordinates. `GlobalPosition`,
`ChunkPosition` and `LocalPosition` in positions.h are structurally this
triple; all three compare by the Morton code of their coordinates and define
equality component-wise (`operator== = default`). Coordinates are modelled
as `Nat`; the C++ domain is values below `2^32`. -/
structure GPos where
  x : Nat
  y : Nat
  z : Nat
deriving DecidableEq, Repr

/-- Morton code of a position (`GlobalPosition::encode`). -/
def GPos.code (p : GPos) : Nat := mortonEncode p.x p.y p.z

/-- The strict comparison of positions.h: `operator<` derived from
`operator<=>`, which compares Morton codes. -/
def gposLt (a b : GPos) : Prop := a.code < b.code

instance (a b : GPos) : Decidable (gposLt a b) :=
  inferInstanceAs (Decidable (a.code < b.code))

/-- `2^32`, the modulus of the unsigned 32-bit coordinate arithmetic. -/
def u32 : Nat := 4294967296

/-- `ChunkPosition(GlobalPosition)`: per-axis shift right by 5. -/
def chunkOfP (g : GPos) : GPos := ⟨g.x >>> 5, g.y >>> 5, g.z >>> 5⟩

/-- `LocalPosition(GlobalPosition)`: per-axis bitwise AND with 31. -/
def localOfP (g : GPos) : GPos := ⟨g.x &&& 31, g.y &&& 31, g.z &&& 31⟩

/-- `GlobalPosition(ChunkPosition)`: per-axis shift left by 5 in `uint32_t`
arithmetic (wraps modulo `2^32`). -/
def gposOfChunk (c : GPos) : GPos :=
  ⟨(c.x <<< 5) % u32, (c.y <<< 5) % u32, (c.z <<< 5) % u32⟩

/-- `GlobalPosition::operator+`: component-wise `uint32_t` addition. -/
def gposAdd (a b : GPos) : GPos :=
  ⟨(a.x + b.x) % u32, (a.y + b.y) % u32, (a.z + b.z) % u32⟩

/-- `chunk_map::combine`: `GlobalPosition(c) + GlobalPosition(l)`
(`GlobalPosition(LocalPosition)` copies the coordinates unchanged). -/
def combineP (c l : GPos) : GPos := gposAdd (gposOfChunk c) l

lemma testBit_one' (k : Nat) : Nat.testBit 1 k = decide (k = 0) := by
  cases k with
  | zero => decide
  | succ k =>
    simp [Nat.testBit_lt_two_pow (Nat.one_lt_two_pow (Nat.succ_ne_zero k))]

lemma testBit_mod_two (n k : Nat) : (n % 2).testBit (k + 1) = false := by
  apply Nat.testBit_lt_two_pow
  have h1 : n % 2 < 2 := Nat.mod_lt _ (by norm_num)
  have h2 : (2 : Nat) ≤ 2 ^ (k + 1) := Nat.le_self_pow (Nat.succ_ne_zero k) 2
  omega

lemma mortonEncode_testBit_x (x y z b : Nat) (hb : b < 10) :
    (mortonEncode x y z).testBit (3 * b) = x.testBit b := by
  interval_cases b <;>
    simp [mortonEncode, List.range_succ, testBit_one', testBit_mod_two]

lemma mortonEncode_testBit_y (x y z b : Nat) (hb : b < 10) :
    (mortonEncode x y z).testBit (3 * b + 1) = y.testBit b := by
  interval_cases b <;>
    simp [mortonEncode, List.range_succ, testBit_one', testBit_mod_two]

lemma mortonEncode_testBit_z (x y z b : Nat) (hb : b < 10) :
    (mortonEncode x y z).testBit (3 * b + 2) = z.testBit b := by
  interval_cases b <;>
    simp [mortonEncode, List.range_succ, testBit_one', testBit_mod_two]

lemma coord_eq_of_testBit {a a' : Nat} (ha : a < 1024) (ha' : a' < 1024)
    (h : ∀ b, b < 10 → a.testBit b = a'.testBit b) : a = a' := by
  apply Nat.eq_of_testBit_eq
  intro i
  by_cases hi : i < 10
  · exact h i hi
  · have hle : (1024 : Nat) ≤ 2 ^ i := by
      calc (1024 : Nat) = 2 ^ 10 := by norm_num
        _ ≤ 2 ^ i := Nat.pow_le_pow_right (by norm_num) (by omega)
    rw [Nat.testBit_lt_two_pow (by omega), Nat.testBit_lt_two_pow (by omega)]

/-- On the 10-bit-per-axis domain the Morton interleave is injective. -/
lemma mortonEncode_inj {x y z x' y' z' : Nat}
    (hx : x < 1024) (hy : y < 1024) (hz : z < 1024)
    (hx' : x' < 1024) (hy' : y' < 1024) (hz' : z' < 1024)
    (h : mortonEncode x y z = mortonEncode x' y' z') :
    x = x' ∧ y = y' ∧ z = z' := by
  refine ⟨coord_eq_of_testBit hx hx' fun b hb => ?_,
          coord_eq_of_testBit hy hy' fun b hb => ?_,
          coord_eq_of_testBit hz hz' fun b hb => ?_⟩
  · rw [← mortonEncode_testBit_x x y z b hb, ← mortonEncode_testBit_x x' y' z' b hb, h]
  · rw [← mortonEncode_testBit_y x y z b hb, ← mortonEncode_testBit_y x' y' z' b hb, h]
  · rw [← mortonEncode_testBit_z x y z b hb, ← mortonEncode_testBit_z x' y' z' b hb, h]

/-- All coordinates of a position lie below `2^10`, the part of the
coordinate space the Morton comparison actually reads. -/
def Coords10 (p : GPos) : Prop := p.x < 1024 ∧ p.y < 1024 ∧ p.z < 1024

instance (p : GPos) : Decidable (Coords10 p) :=
  inferInstanceAs (Decidable (p.x < 1024 ∧ p.y < 1024 ∧ p.z < 1024))

/-- C2 counterexample input: positions (0,0,0) and (1024,0,0) differ
component-wise, yet both Morton codes are 0 because `morton_encode` reads
only the ten low bits of each axis. -/
theorem gpos_trichotomy_fails_at_1024 :
    ¬ gposLt ⟨0, 0, 0⟩ ⟨1024, 0, 0⟩ ∧ ¬ gposLt ⟨1024, 0, 0⟩ ⟨0, 0, 0⟩ ∧
      (⟨0, 0, 0⟩ : GPos) ≠ ⟨1024, 0, 0⟩ := by
  refine ⟨?_, ?_, ?_⟩ <;> decide

/-- C2 (amended): on coordinates below `2^10` exactly one of `a<b`, `b<a`,
`a==b` holds, and `<` is transitive on the full unsigned domain, so the
Morton comparison with component-wise equality is a strict total order
there. The same comparator is shared by `GlobalPosition`, `ChunkPosition`
and `LocalPosition`. -/
theorem gpos_strict_total_order_on_coords10 :
    (∀ a b : GPos, Coords10 a → Coords10 b →
      (gposLt a b ∧ ¬ gposLt b a ∧ a ≠ b) ∨
      (¬ gposLt a b ∧ gposLt b a ∧ a ≠ b) ∨
      (¬ gposLt a b ∧ ¬ gposLt b a ∧ a = b)) ∧
    (∀ a b c : GPos, gposLt a b → gposLt b c → gposLt a c) := by
  constructor
  · intro a b ⟨hax, hay, haz⟩ ⟨hbx, hby, hbz⟩
    rcases Nat.lt_trichotomy a.code b.code with h | h | h
    · exact Or.inl ⟨h, by simp [gposLt]; omega, by rintro rfl; exact lt_irrefl _ h⟩
    · refine Or.inr (Or.inr ⟨by simp [gposLt]; omega, by simp [gposLt]; omega, ?_⟩)
      obtain ⟨h1, h2, h3⟩ := mortonEncode_inj hax hay haz hbx hby hbz h
      cases a; cases b; simp_all
    · exact Or.inr (Or.inl ⟨by simp [gposLt]; omega, h, by rintro rfl; exact lt_irrefl _ h⟩)
  · intro a b c h1 h2
    exact Nat.lt_trans h1 h2

/-- Witness for the amended C2 theorem at concrete positions. -/
theorem gpos_strict_total_order_on_coords10_witness :
    Coords10 ⟨1, 2, 3⟩ ∧ Coords10 ⟨2, 2, 3⟩ ∧
      ((gposLt ⟨1, 2, 3⟩ ⟨2, 2, 3⟩ ∧ ¬ gposLt ⟨2, 2, 3⟩ ⟨1, 2, 3⟩ ∧ (⟨1, 2, 3⟩ : GPos) ≠ ⟨2, 2, 3⟩) ∨
       (¬ gposLt ⟨1, 2, 3⟩ ⟨2, 2, 3⟩ ∧ gposLt ⟨2, 2, 3⟩ ⟨1, 2, 3⟩ ∧ (⟨1, 2, 3⟩ : GPos) ≠ ⟨2, 2, 3⟩) ∨
       (¬ gposLt ⟨1, 2, 3⟩ ⟨2, 2, 3⟩ ∧ ¬ gposLt ⟨2, 2, 3⟩ ⟨1, 2, 3⟩ ∧ (⟨1, 2, 3⟩ : GPos) = ⟨2, 2, 3⟩)) :=
  ⟨by decide, by decide,
    gpos_strict_total_order_on_coords10.1 ⟨1, 2, 3⟩ ⟨2, 2, 3⟩ (by decide) (by decide)⟩

lemma roundTrip_axis (a : Nat) (ha : a < u32) :
    ((a >>> 5 <<< 5) % u32 + (a &&& 31)) % u32 = a := by
  have h31 : a &&& 31 = a % 32 := by
    have := Nat.and_pow_two_sub_one_eq_mod a 5
    norm_num at this
    exact this
  rw [Nat.shiftRight_eq_div_pow, Nat.shiftLeft_eq, h31]
  simp only [u32] at *
  omega

/-- C5: composing the chunk part (shift right 5) with the local part
(AND 31) reconstructs any `GlobalPosition` with in-range (below `2^32`)
coordinates exactly: `combine(chunk_of(g), local_of(g)) == g`. -/
theorem compose_chunk_local_roundtrip (g : GPos)
    (hx : g.x < u32) (hy : g.y < u32) (hz : g.z < u32) :
    combineP (chunkOfP g) (localOfP g) = g := by
  cases g with
  | mk x y z =>
    simp only [combineP, chunkOfP, localOfP, gposOfChunk, gposAdd, GPos.mk.injEq]
    exact ⟨roundTrip_axis x hx, roundTrip_axis y hy, roundTrip_axis z hz⟩

/-- Witness for C5 at a concrete position. -/
theorem compose_chunk_local_roundtrip_witness :
    (37 : Nat) < u32 ∧ combineP (chunkOfP ⟨37, 1000000, 4294967295⟩)
      (localOfP ⟨37, 1000000, 4294967295⟩) = ⟨37, 1000000, 4294967295⟩ :=
  ⟨by decide, compose_chunk_local_roundtrip _ (by decide) (by decide) (by decide)⟩

section SetViews

variable {α : Type} (comp : α → α → Bool)

/-- `detail::set_iter::satisfy` for `set_op::overlap` (set_views.h 72-78):
while neither iterator is at its end, advance the first past smaller
elements and the second past smaller elements, stopping at an equivalent
pair. The loop also stops, leaving the state as is, as soon as either
sequence is exhausted. -/
def satisfyOverlap : List α → List α → List α × List α
  | [], l2 => ([], l2)
  | l1, [] => (l1, [])
  | a :: as, b :: bs =>
    if comp a b then satisfyOverlap as (b :: bs)
    else if comp b a then satisfyOverlap (a :: as) bs
    else (a :: as, b :: bs)
  termination_by l1 l2 => l1.length + l2.length

lemma satisfyOverlap_fst_le (l1 l2 : List α) :
    (satisfyOverlap comp l1 l2).1.length ≤ l1.length := by
  induction l1, l2 using satisfyOverlap.induct comp with
  | case1 l2 => simp [satisfyOverlap]
  | case2 l1 h => rw [satisfyOverlap.eq_def]; cases l1 <;> simp
  | case3 a as b bs hc ih => rw [satisfyOverlap, if_pos hc]; exact ih.trans (by simp)
  | case4 a as b bs hc hc2 ih => rw [satisfyOverlap, if_neg hc, if_pos hc2]; exact ih
  | case5 a as b bs hc hc2 => rw [satisfyOverlap, if_neg hc, if_neg hc2]

/-- The overlap iterator's emission loop on a satisfied state. The iterator
compares equal to the end sentinel exactly when the FIRST range is
exhausted (set_views.h 44-50: for overlap `operator==` returns
`it1_ == end1_` alone); otherwise it dereferences `*it1_`, then
`operator++` advances both iterators (`++it1_; ++it2_` — when the second
already sits at its end the C++ increments past the end, undefined
behaviour; the model leaves an exhausted list empty) and re-runs
`satisfy`. -/
def overlapEmit : List α → List α → List α
  | [], _ => []
  | a :: as, l2 =>
    let s := satisfyOverlap comp as l2.tail
    a :: overlapEmit s.1 s.2
  termination_by l1 _ => l1.length
  decreasing_by
    simp only [List.length_cons]
    exact Nat.lt_succ_of_le (satisfyOverlap_fst_le comp as l2.tail)

/-- The full overlap view over two ascending sequences: the constructor
runs `satisfy` once, then the consumer pulls elements until the iterator
equals the sentinel. -/
def overlapView (A B : List α) : List α :=
  let s := satisfyOverlap comp A B
  overlapEmit comp s.1 s.2

end SetViews

/-- The key comparator the containers pass to `views::overlap`:
`a.first < b.first`. -/
def pairLt (a b : Nat × Nat) : Bool := a.1 < b.1

/-- C1 failing input: with `A = [(5,0)]` and `B = [(3,1)]` the overlap view
emits the entry with key 5 even though key 5 does not occur in `B`: after
`satisfy` exhausts `B`, the end test (`it1_ == end1_` only) still reports
a live iterator and `*it1_` is produced. -/
theorem overlap_emits_key_absent_from_B :
    overlapView pairLt [(5, 0)] [(3, 1)] = [(5, 0)] ∧
      ¬ (5 ∈ (List.map Prod.fst [((3 : Nat), (1 : Nat))])) := by
  constructor
  · simp [overlapView, overlapEmit, satisfyOverlap, pairLt]
  · decide

section ListHelpers

variable {β : Type}

lemma getD_mem {l : List β} {i : Nat} (d : β) (h : i < l.length) : l.getD i d ∈ l := by
  rw [List.getD_eq_getElem?_getD, List.getElem?_eq_getElem h]
  exact List.getElem_mem h

lemma mem_of_mem_set {l : List β} {i : Nat} {b e : β} (he : e ∈ l.set i b) : e = b ∨ e ∈ l := by
  induction l generalizing i with
  | nil => simp at he
  | cons a as ih =>
    cases i with
    | zero =>
      rcases List.mem_cons.mp he with h | h
      · exact Or.inl h
      · exact Or.inr (List.mem_cons_of_mem _ h)
    | succ i =>
      rcases List.mem_cons.mp he with h | h
      · exact Or.inr (h ▸ List.mem_cons_self _ _)
      · rcases ih h with h2 | h2
        · exact Or.inl h2
        · exact Or.inr (List.mem_cons_of_mem _ h2)

lemma getD_set_self {l : List β} {i : Nat} {b : β} (d : β) (h : i < l.length) :
    (l.set i b).getD i d = b := by
  rw [List.getD_eq_getElem?_getD, List.getElem?_set_self h]
  rfl

lemma getD_set_ne {l : List β} {i j : Nat} (b d : β) (h : i ≠ j) :
    (l.set i b).getD j d = l.getD j d := by
  rw [List.getD_eq_getElem?_getD, List.getElem?_set_ne h, ← List.getD_eq_getElem?_getD]

lemma getD_append_left {l l' : List β} {i : Nat} (d : β) (h : i < l.length) :
    (l ++ l').getD i d = l.getD i d := by
  rw [List.getD_eq_getElem?_getD, List.getElem?_append_left h, ← List.getD_eq_getElem?_getD]

lemma getD_append_right {l l' : List β} {i : Nat} (d : β) (h : l.length ≤ i) :
    (l ++ l').getD i d = l'.getD (i - l.length) d := by
  rw [List.getD_eq_getElem?_getD, List.getElem?_append_right h, ← List.getD_eq_getElem?_getD]

lemma getD_replicate {n i : Nat} {b d : β} (h : i < n) :
    (List.replicate n b).getD i d = b := by
  rw [List.getD_eq_getElem?_getD, List.getElem?_replicate, if_pos h]
  rfl

lemma lt_length_of_getD_ne {l : List Nat} {i d : Nat} (h : l.getD i d ≠ d) : i < l.length := by
  by_contra hge
  rw [List.getD_eq_getElem?_getD, List.getElem?_eq_none (by omega)] at h
  exact h rfl

end ListHelpers

/-- State of a `bucket_map<Key, T, std::uint64_t>` (bucket_map.h): `buckets`
models the packed `flat_vector<array_packed<64, int>>` as one list of 64
pool indices per bucket (`array_packed` stores plain ints accessed through
write-through proxies); `values` is the deduplicated value pool whose slot
0 holds the default value; `size` is the running element counter. Index 0
in a slot means "absent". -/
structure BMap (V : Type) where
  buckets : List (List Nat)
  values  : List V
  size    : Nat
deriving Repr, DecidableEq

section BucketMap

variable {V : Type} [DecidableEq V] [Inhabited V]

/-- The default-constructed map: `values_.push_back(T{})`. -/
def bmEmpty : BMap V := ⟨[], [default], 0⟩

/-- `bucket_map::value_index_at`: the pool index stored for a key, 0 when
the key's bucket does not exist. -/
def bmValueIndexAt (s : BMap V) (key : Nat) : Nat :=
  if key / 64 < s.buckets.length then (s.buckets.getD (key / 64) []).getD (key % 64) 0
  else 0

/-- `bucket_map::contains`: a key is present iff its slot index is nonzero. -/
def bmContains (s : BMap V) (key : Nat) : Bool := bmValueIndexAt s key ≠ 0

/-- `bucket_map::at`: `none` models the `std::out_of_range` (NotFound)
throw on an absent key; otherwise the pool value at the key's slot. -/
def bmAt (s : BMap V) (key : Nat) : Option V :=
  let vi := bmValueIndexAt s key
  if vi = 0 then none else some (s.values.getD vi default)

/-- The linear scan of `insert_or_assign_impl` over the indices in `is`:
the first slot holding a nonzero pool index whose value equals `v` wins;
0 when no slot matches. -/
def bmScanFrom (vals : List V) (arr : List Nat) (v : V) : List Nat → Nat
  | [] => 0
  | i :: is =>
    let vi := arr.getD i 0
    if vi ≠ 0 ∧ vals.getD vi default = v then vi else bmScanFrom vals arr v is

/-- The full 64-slot scan (`for i in 0..63`). -/
def bmScanFind (vals : List V) (arr : List Nat) (v : V) : Nat :=
  bmScanFrom vals arr v (List.range 64)

/-- `buckets_.resize(idx + 1)` when the key's bucket is beyond the current
capacity: appended buckets read as all-zero arrays. -/
def bmGrow (bk : List (List Nat)) (idx : Nat) : List (List Nat) :=
  if idx < bk.length then bk else bk ++ List.replicate (idx + 1 - bk.length) (List.replicate 64 0)

/-- `bucket_map::insert_or_assign_impl`: grow to the key's bucket, scan the
≤64 slots of that bucket for an existing pool entry equal to `val`, push a
fresh pool entry only when none matches, bump `size_` if the slot was
empty, and point the slot at the chosen pool index. -/
def bmInsertOrAssign (s : BMap V) (key : Nat) (v : V) : BMap V :=
  let idx := key / 64
  let bit := key % 64
  let buckets1 := bmGrow s.buckets idx
  let arr := buckets1.getD idx []
  let found := bmScanFind s.values arr v
  let valIdx := if found = 0 then s.values.length else found
  let values1 := if found = 0 then s.values ++ [v] else s.values
  let size1 := if arr.getD bit 0 = 0 then s.size + 1 else s.size
  ⟨buckets1.set idx (arr.set bit valIdx), values1, size1⟩

/-- `bucket_map::erase`: 0 when the bucket is beyond capacity or the slot
is already empty; otherwise clear the slot, decrement `size_` and return 1.
The value pool is never touched. -/
def bmErase (s : BMap V) (key : Nat) : Nat × BMap V :=
  let idx := key / 64
  if idx < s.buckets.length then
    let bit := key % 64
    let arr := s.buckets.getD idx []
    if arr.getD bit 0 = 0 then (0, s)
    else (1, ⟨s.buckets.set idx (arr.set bit 0), s.values, s.size - 1⟩)
  else (0, s)

/-- `bucket_map::clear`: drop all buckets, reset the pool to the default
slot, zero the counter. -/
def bmClear (_ : BMap V) : BMap V := ⟨[], [default], 0⟩

lemma bmScanFrom_eq_zero {vals : List V} {arr : List Nat} {v : V} {is : List Nat}
    (h : bmScanFrom vals arr v is = 0) :
    ∀ i ∈ is, ¬(arr.getD i 0 ≠ 0 ∧ vals.getD (arr.getD i 0) default = v) := by
  induction is with
  | nil => simp
  | cons i is ih =>
    rw [bmScanFrom] at h
    by_cases hc : arr.getD i 0 ≠ 0 ∧ vals.getD (arr.getD i 0) default = v
    · rw [if_pos hc] at h
      exact absurd h hc.1
    · rw [if_neg hc] at h
      intro j hj
      rcases List.mem_cons.mp hj with rfl | hj2
      · exact hc
      · exact ih h j hj2

lemma bmScanFrom_spec {vals : List V} {arr : List Nat} {v : V} {is : List Nat}
    (h : bmScanFrom vals arr v is ≠ 0) :
    ∃ i ∈ is, arr.getD i 0 = bmScanFrom vals arr v is ∧
      vals.getD (bmScanFrom vals arr v is) default = v := by
  induction is with
  | nil => simp [bmScanFrom] at h
  | cons i is ih =>
    rw [bmScanFrom] at h ⊢
    by_cases hc : arr.getD i 0 ≠ 0 ∧ vals.getD (arr.getD i 0) default = v
    · rw [if_pos hc]
      exact ⟨i, List.mem_cons_self _ _, rfl, hc.2⟩
    · rw [if_neg hc] at h ⊢
      obtain ⟨j, hj, hj2, hj3⟩ := ih h
      exact ⟨j, List.mem_cons_of_mem _ hj, hj2, hj3⟩

lemma bmScanFind_spec {vals : List V} {arr : List Nat} {v : V}
    (h : bmScanFind vals arr v ≠ 0) :
    ∃ i, i < 64 ∧ arr.getD i 0 = bmScanFind vals arr v ∧
      vals.getD (bmScanFind vals arr v) default = v := by
  obtain ⟨i, hi, h2, h3⟩ := bmScanFrom_spec h
  exact ⟨i, List.mem_range.mp hi, h2, h3⟩

lemma bmScanFind_eq_zero {vals : List V} {arr : List Nat} {v : V}
    (h : bmScanFind vals arr v = 0) :
    ∀ i, i < 64 → ¬(arr.getD i 0 ≠ 0 ∧ vals.getD (arr.getD i 0) default = v) :=
  fun i hi => bmScanFrom_eq_zero h i (List.mem_range.mpr hi)

lemma bmGrow_length_le (bk : List (List Nat)) (idx : Nat) : bk.length ≤ (bmGrow bk idx).length := by
  unfold bmGrow; split <;> simp

lemma lt_bmGrow_length (bk : List (List Nat)) (idx : Nat) : idx < (bmGrow bk idx).length := by
  unfold bmGrow; split
  · assumption
  · simp; omega

lemma bmGrow_mem {bk : List (List Nat)} {idx : Nat} {a : List Nat} (h : a ∈ bmGrow bk idx) :
    a ∈ bk ∨ a = List.replicate 64 0 := by
  unfold bmGrow at h; split at h
  · exact Or.inl h
  · rcases List.mem_append.mp h with h2 | h2
    · exact Or.inl h2
    · exact Or.inr (List.eq_of_mem_replicate h2)

lemma bmGrow_getD (bk : List (List Nat)) (idx : Nat) :
    (bmGrow bk idx).getD idx [] = if idx < bk.length then bk.getD idx [] else List.replicate 64 0 := by
  unfold bmGrow; split
  · rfl
  · rw [getD_append_right _ (by omega), getD_replicate (by omega)]

end BucketMap

/-- Well-formedness of a bucket map state, established for every state the
public interface can reach: the pool holds at least the default slot, every
bucket is a 64-slot array, every slot index points into the pool, and -
the bucket-local dedup invariant - no two occupied slots of one bucket
reference pool entries holding equal values unless they are the same
index. -/
structure BmWF {V : Type} [DecidableEq V] [Inhabited V] (s : BMap V) : Prop where
  values_ne : 1 ≤ s.values.length
  blen : ∀ arr ∈ s.buckets, arr.length = 64
  inRange : ∀ arr ∈ s.buckets, ∀ i, i < 64 → arr.getD i 0 < s.values.length
  dedup : ∀ arr ∈ s.buckets, ∀ i j, i < 64 → j < 64 →
    arr.getD i 0 ≠ 0 → arr.getD j 0 ≠ 0 →
    s.values.getD (arr.getD i 0) default = s.values.getD (arr.getD j 0) default →
    arr.getD i 0 = arr.getD j 0

section BucketMapInv

variable {V : Type} [DecidableEq V] [Inhabited V]

lemma bmWF_empty : BmWF (bmEmpty : BMap V) := by
  constructor <;> simp [bmEmpty]

lemma BmWF.insertOrAssign {s : BMap V} (h : BmWF s) (key : Nat) (v : V) :
    BmWF (bmInsertOrAssign s key v) := by
  obtain ⟨hv1, hblen, hrange, hdedup⟩ := h
  have hbitlt : key % 64 < 64 := Nat.mod_lt _ (by norm_num)
  simp only [bmInsertOrAssign]
  set idx := key / 64 with hidx
  set bit := key % 64 with hbit
  set b1 := bmGrow s.buckets idx with hb1
  set arr := b1.getD idx [] with harrdef
  have harrmem : arr ∈ s.buckets ∨ arr = List.replicate 64 0 := by
    rw [harrdef, hb1, bmGrow_getD]
    split
    · exact Or.inl (getD_mem _ (by assumption))
    · exact Or.inr rfl
  have harrlen : arr.length = 64 := by
    rcases harrmem with hm | hm
    · exact hblen _ hm
    · simp [hm]
  have harr_range : ∀ i, i < 64 → arr.getD i 0 < s.values.length := by
    intro i hi
    rcases harrmem with hm | hm
    · exact hrange _ hm i hi
    · rw [hm, getD_replicate hi]; omega
  have harr_dedup : ∀ i j, i < 64 → j < 64 → arr.getD i 0 ≠ 0 → arr.getD j 0 ≠ 0 →
      s.values.getD (arr.getD i 0) default = s.values.getD (arr.getD j 0) default →
      arr.getD i 0 = arr.getD j 0 := by
    intro i j hi hj hni hnj hvv
    rcases harrmem with hm | hm
    · exact hdedup _ hm i j hi hj hni hnj hvv
    · rw [hm, getD_replicate hi] at hni; exact absurd rfl hni
  set fnd := bmScanFind s.values arr v with hfnd
  set valIdx := if fnd = 0 then s.values.length else fnd with hviDef
  set vals1 := if fnd = 0 then s.values ++ [v] else s.values with hvals1
  have hlen1 : s.values.length ≤ vals1.length := by
    rw [hvals1]; split <;> simp
  have hstable : ∀ w, w < s.values.length → vals1.getD w default = s.values.getD w default := by
    intro w hw
    rw [hvals1]; split
    · exact getD_append_left _ hw
    · rfl
  have hvIdx_lt : valIdx < vals1.length := by
    rw [hviDef, hvals1]
    by_cases hf : fnd = 0
    · simp [hf]
    · rw [if_neg hf, if_neg hf]
      obtain ⟨i, hi, hieq, _⟩ := bmScanFind_spec (hfnd ▸ hf)
      rw [← hfnd] at hieq
      rw [← hieq]
      exact harr_range i hi
  have hvIdx_val : vals1.getD valIdx default = v := by
    rw [hviDef, hvals1]
    by_cases hf : fnd = 0
    · rw [if_pos hf, if_pos hf, getD_append_right _ (le_refl _), Nat.sub_self]
      rfl
    · rw [if_neg hf, if_neg hf]
      obtain ⟨i, hi, hieq, hival⟩ := bmScanFind_spec (hfnd ▸ hf)
      rw [← hfnd] at hival
      exact hival
  have hnew_of_old : ∀ j, j < 64 → arr.getD j 0 ≠ 0 →
      s.values.getD (arr.getD j 0) default = v → arr.getD j 0 = valIdx := by
    intro j hj hnj hjv
    by_cases hf : fnd = 0
    · exact absurd ⟨hnj, hjv⟩ (bmScanFind_eq_zero (hfnd ▸ hf) j hj)
    · obtain ⟨i, hi, hieq, hival⟩ := bmScanFind_spec (hfnd ▸ hf)
      rw [← hfnd] at hieq hival
      rw [hviDef, if_neg hf, ← hieq]
      have hival2 : s.values.getD (arr.getD i 0) default = v := by rw [hieq]; exact hival
      have hine : arr.getD i 0 ≠ 0 := by rw [hieq]; exact hf
      exact harr_dedup j i hj hi hnj hine (hjv.trans hival2.symm)
  refine ⟨?_, ?_, ?_, ?_⟩
  · dsimp only
    omega
  · dsimp only
    intro a ha
    rcases mem_of_mem_set ha with rfl | ha2
    · simp [harrlen]
    · rcases bmGrow_mem (hb1 ▸ ha2) with hm | hm
      · exact hblen _ hm
      · simp [hm]
  · dsimp only
    intro a ha i hi
    rcases mem_of_mem_set ha with rfl | ha2
    · by_cases hib : i = bit
      · subst hib
        rw [getD_set_self _ (by omega)]
        exact hvIdx_lt
      · rw [getD_set_ne _ _ (fun hh => hib hh.symm)]
        exact lt_of_lt_of_le (harr_range i hi) hlen1
    · rcases bmGrow_mem (hb1 ▸ ha2) with hm | hm
      · exact lt_of_lt_of_le (hrange _ hm i hi) hlen1
      · rw [hm, getD_replicate hi]; omega
  · dsimp only
    intro a ha i j hi hj hni hnj hvv
    rcases mem_of_mem_set ha with rfl | ha2
    · by_cases hib : i = bit <;> by_cases hjb : j = bit
      · subst hib; subst hjb; rfl
      · subst hib
        rw [getD_set_self _ (by omega)] at hni hvv ⊢
        rw [getD_set_ne _ _ (fun hh => hjb hh.symm)] at hnj hvv ⊢
        have hjlt : arr.getD j 0 < s.values.length := harr_range j hj
        have hjv : s.values.getD (arr.getD j 0) default = v := by
          rw [← hstable _ hjlt, ← hvv, hvIdx_val]
        exact (hnew_of_old j hj hnj hjv).symm
      · subst hjb
        rw [getD_set_self _ (by omega)] at hnj hvv ⊢
        rw [getD_set_ne _ _ (fun hh => hib hh.symm)] at hni hvv ⊢
        have hilt : arr.getD i 0 < s.values.length := harr_range i hi
        have hiv : s.values.getD (arr.getD i 0) default = v := by
          rw [← hstable _ hilt, hvv, hvIdx_val]
        exact hnew_of_old i hi hni hiv
      · rw [getD_set_ne _ _ (fun hh => hib hh.symm)] at hni hvv ⊢
        rw [getD_set_ne _ _ (fun hh => hjb hh.symm)] at hnj hvv ⊢
        have hilt := harr_range i hi
        have hjlt := harr_range j hj
        rw [hstable _ hilt, hstable _ hjlt] at hvv
        exact harr_dedup i j hi hj hni hnj hvv
    · rcases bmGrow_mem (hb1 ▸ ha2) with hm | hm
      · have hilt := hrange _ hm i hi
        have hjlt := hrange _ hm j hj
        rw [hstable _ hilt, hstable _ hjlt] at hvv
        exact hdedup _ hm i j hi hj hni hnj hvv
      · rw [hm, getD_replicate hi] at hni
        exact absurd rfl hni

lemma BmWF.eraseKeepsWF {s : BMap V} (h : BmWF s) (key : Nat) : BmWF (bmErase s key).2 := by
  obtain ⟨hv1, hblen, hrange, hdedup⟩ := h
  rw [bmErase]
  split
  · dsimp only
    split
    · exact ⟨hv1, hblen, hrange, hdedup⟩
    · refine ⟨hv1, ?_, ?_, ?_⟩
      · intro a ha
        rcases mem_of_mem_set ha with rfl | ha2
        · rw [List.length_set]
          exact hblen _ (getD_mem _ (by assumption))
        · exact hblen _ ha2
      · intro a ha i hi
        rcases mem_of_mem_set ha with rfl | ha2
        · have hb : key % 64 < (s.buckets.getD (key / 64) []).length := by
            rw [hblen _ (getD_mem _ (by assumption))]
            exact Nat.mod_lt _ (by norm_num)
          by_cases hib : i = key % 64
          · subst hib
            rw [getD_set_self _ hb]
            exact hv1
          · rw [getD_set_ne _ _ (fun hh => hib hh.symm)]
            exact hrange _ (getD_mem _ (by assumption)) i hi
        · exact hrange _ ha2 i hi
      · intro a ha i j hi hj hni hnj hvv
        rcases mem_of_mem_set ha with rfl | ha2
        · have hb : key % 64 < (s.buckets.getD (key / 64) []).length := by
            rw [hblen _ (getD_mem _ (by assumption))]
            exact Nat.mod_lt _ (by norm_num)
          by_cases hib : i = key % 64
          · subst hib
            rw [getD_set_self _ hb] at hni
            exact absurd rfl hni
          · by_cases hjb : j = key % 64
            · subst hjb
              rw [getD_set_self _ hb] at hnj
              exact absurd rfl hnj
            · rw [getD_set_ne _ _ (fun hh => hib hh.symm)] at hni hvv ⊢
              rw [getD_set_ne _ _ (fun hh => hjb hh.symm)] at hnj hvv ⊢
              exact hdedup _ (getD_mem _ (by assumption)) i j hi hj hni hnj hvv
        · exact hdedup _ ha2 i j hi hj hni hnj hvv
  · exact ⟨hv1, hblen, hrange, hdedup⟩

lemma bmWF_clear (s : BMap V) : BmWF (bmClear s) := by
  constructor <;> simp [bmClear]

/-- In a well-formed state, two present keys of the same bucket whose
lookups agree reference the same pool slot. -/
lemma BmWF.shared_slot {s : BMap V} (h : BmWF s) (k1 k2 : Nat)
    (hb : k1 / 64 = k2 / 64)
    (h1 : bmContains s k1 = true) (h2 : bmContains s k2 = true)
    (hv : bmAt s k1 = bmAt s k2) :
    bmValueIndexAt s k1 = bmValueIndexAt s k2 := by
  simp only [bmContains, bmValueIndexAt, decide_eq_true_eq, ne_eq] at h1 h2
  by_cases hlt : k1 / 64 < s.buckets.length
  · rw [if_pos hlt] at h1
    rw [if_pos (hb ▸ hlt)] at h2
    have hv1 : bmValueIndexAt s k1 = (s.buckets.getD (k1 / 64) []).getD (k1 % 64) 0 := by
      rw [bmValueIndexAt, if_pos hlt]
    have hv2 : bmValueIndexAt s k2 = (s.buckets.getD (k1 / 64) []).getD (k2 % 64) 0 := by
      rw [bmValueIndexAt, if_pos (hb ▸ hlt), ← hb]
    rw [bmAt, bmAt] at hv
    simp only [hv1, hv2] at *
    rw [if_neg h1, if_neg (hb ▸ h2)] at hv
    have hveq := Option.some.inj hv
    have harm : (s.buckets.getD (k1 / 64) []) ∈ s.buckets := getD_mem _ hlt
    have hm1 : k1 % 64 < 64 := Nat.mod_lt _ (by norm_num)
    have hm2 : k2 % 64 < 64 := Nat.mod_lt _ (by norm_num)
    exact h.dedup _ harm _ _ hm1 hm2 h1 (hb ▸ h2) (by exact hveq)
  · rw [if_neg hlt] at h1
    exact absurd rfl h1

/-- `insert_or_assign` followed by `at` on the same key reads back the
assigned value (in any well-formed state). -/
lemma bmAt_insertOrAssign_self {s : BMap V} (h : BmWF s) (k : Nat) (v : V) :
    bmAt (bmInsertOrAssign s k v) k = some v := by
  obtain ⟨hv1, hblen, hrange, hdedup⟩ := h
  have hbitlt : k % 64 < 64 := Nat.mod_lt _ (by norm_num)
  simp only [bmInsertOrAssign]
  set idx := k / 64 with hidx
  set bit := k % 64 with hbit
  set b1 := bmGrow s.buckets idx with hb1
  set arr := b1.getD idx [] with harrdef
  have harrmem : arr ∈ s.buckets ∨ arr = List.replicate 64 0 := by
    rw [harrdef, hb1, bmGrow_getD]
    split
    · exact Or.inl (getD_mem _ (by assumption))
    · exact Or.inr rfl
  have harrlen : arr.length = 64 := by
    rcases harrmem with hm | hm
    · exact hblen _ hm
    · simp [hm]
  set fnd := bmScanFind s.values arr v with hfnd
  set valIdx := if fnd = 0 then s.values.length else fnd with hviDef
  set vals1 := if fnd = 0 then s.values ++ [v] else s.values with hvals1
  have hvIdx_ne : valIdx ≠ 0 := by
    rw [hviDef]
    by_cases hf : fnd = 0
    · rw [if_pos hf]; omega
    · rw [if_neg hf]; exact hf
  have hvIdx_val : vals1.getD valIdx default = v := by
    rw [hviDef, hvals1]
    by_cases hf : fnd = 0
    · rw [if_pos hf, if_pos hf, getD_append_right _ (le_refl _), Nat.sub_self]
      rfl
    · rw [if_neg hf, if_neg hf]
      obtain ⟨i, hi, hieq, hival⟩ := bmScanFind_spec (hfnd ▸ hf)
      rw [← hfnd] at hival
      exact hival
  have hvia : bmValueIndexAt ⟨b1.set idx (arr.set bit valIdx), vals1,
      if arr.getD bit 0 = 0 then s.size + 1 else s.size⟩ k = valIdx := by
    simp only [bmValueIndexAt, List.length_set]
    rw [← hidx, ← hbit, if_pos (lt_bmGrow_length s.buckets idx),
        getD_set_self _ (lt_bmGrow_length s.buckets idx),
        getD_set_self _ (by omega)]
  rw [bmAt, hvia, if_neg hvIdx_ne, hvIdx_val]

/-- `at` returns NotFound exactly on the keys `contains` rejects. -/
lemma bmAt_none_iff (s : BMap V) (k : Nat) :
    bmAt s k = none ↔ bmContains s k = false := by
  rw [bmAt, bmContains]
  by_cases hz : bmValueIndexAt s k = 0
  · rw [if_pos hz]
    simp [hz]
  · rw [if_neg hz]
    simp [hz]

end BucketMapInv

/-- One public mutating call on a bucket map: `insert_or_assign`, `erase`
or `clear`. -/
inductive BmOp (V : Type) where
  | ins (k : Nat) (v : V)
  | del (k : Nat)
  | clr

section BucketMapRun

variable {V : Type} [DecidableEq V] [Inhabited V]

def bmApply (s : BMap V) : BmOp V → BMap V
  | .ins k v => bmInsertOrAssign s k v
  | .del k => (bmErase s k).2
  | .clr => bmClear s

/-- Replay a sequence of public calls from the default-constructed map:
exactly the states a `bucket_map` can reach. -/
def bmRun (ops : List (BmOp V)) : BMap V := ops.foldl bmApply bmEmpty

lemma bmWF_foldl {s : BMap V} (h : BmWF s) (ops : List (BmOp V)) :
    BmWF (ops.foldl bmApply s) := by
  induction ops generalizing s with
  | nil => exact h
  | cons op ops ih =>
    rw [List.foldl_cons]
    refine ih ?_
    cases op with
    | ins k v => exact h.insertOrAssign k v
    | del k => exact h.eraseKeepsWF k
    | clr => exact bmWF_clear s

lemma bmRun_wf (ops : List (BmOp V)) : BmWF (bmRun ops) := bmWF_foldl bmWF_empty ops

end BucketMapRun

section AssocList

variable {V : Type}

/-- `std::map::find` on an association list keyed by comparison code. -/
def lookupA (l : List (Nat × V)) (k : Nat) : Option V :=
  match l with
  | [] => none
  | e :: es => if e.1 = k then some e.2 else lookupA es k

/-- `map[k] = v`: update in place when the key exists, append otherwise. -/
def setA (l : List (Nat × V)) (k : Nat) (v : V) : List (Nat × V) :=
  match l with
  | [] => [(k, v)]
  | e :: es => if e.1 = k then (k, v) :: es else e :: setA es k v

/-- `std::map::erase(k)`: remove the key's node. -/
def eraseA (l : List (Nat × V)) (k : Nat) : List (Nat × V) :=
  match l with
  | [] => []
  | e :: es => if e.1 = k then es else e :: eraseA es k

lemma lookupA_setA_self (l : List (Nat × V)) (k : Nat) (v : V) :
    lookupA (setA l k v) k = some v := by
  induction l with
  | nil => simp [setA, lookupA]
  | cons e es ih =>
    rw [setA]
    by_cases he : e.1 = k
    · rw [if_pos he, lookupA, if_pos rfl]
    · rw [if_neg he, lookupA, if_neg he]
      exact ih

lemma mem_setA {l : List (Nat × V)} {k : Nat} {v : V} {e : Nat × V}
    (he : e ∈ setA l k v) : e = (k, v) ∨ e ∈ l := by
  induction l with
  | nil => simp [setA] at he; exact Or.inl he
  | cons a as ih =>
    rw [setA] at he
    by_cases ha : a.1 = k
    · rw [if_pos ha] at he
      rcases List.mem_cons.mp he with h | h
      · exact Or.inl h
      · exact Or.inr (List.mem_cons_of_mem _ h)
    · rw [if_neg ha] at he
      rcases List.mem_cons.mp he with h | h
      · exact Or.inr (h ▸ List.mem_cons_self _ _)
      · rcases ih h with h2 | h2
        · exact Or.inl h2
        · exact Or.inr (List.mem_cons_of_mem _ h2)

lemma setA_ne_nil (l : List (Nat × V)) (k : Nat) (v : V) : setA l k v ≠ [] := by
  cases l with
  | nil => simp [setA]
  | cons a as =>
    rw [setA]
    split <;> simp

lemma mem_eraseA {l : List (Nat × V)} {k : Nat} {e : Nat × V}
    (he : e ∈ eraseA l k) : e ∈ l := by
  induction l with
  | nil => simp [eraseA] at he
  | cons a as ih =>
    rw [eraseA] at he
    by_cases ha : a.1 = k
    · rw [if_pos ha] at he
      exact List.mem_cons_of_mem _ he
    · rw [if_neg ha] at he
      rcases List.mem_cons.mp he with h | h
      · exact h ▸ List.mem_cons_self _ _
      · exact List.mem_cons_of_mem _ (ih h)

end AssocList

/-- State of a `chunk_map<T>` (chunk_map.h): the outer `std::map` from
`ChunkPosition` to the inner `std::map` from `LocalPosition` to `T`. Both
maps compare keys by Morton code (`operator<=>` of positions.h), so each
node is keyed here by that code. -/
abbrev CMap (V : Type) := List (Nat × List (Nat × V))

section ChunkMapModel

variable {V : Type}

/-- `chunk_map::split`: the pair of the chunk key (Morton code of the
per-axis `>> 5`) and the local key (Morton code of the per-axis `& 31`). -/
def splitC (g : GPos) : Nat × Nat :=
  (mortonEncode (g.x >>> 5) (g.y >>> 5) (g.z >>> 5),
   mortonEncode (g.x &&& 31) (g.y &&& 31) (g.z &&& 31))

/-- Indexed write `map[gp] = v`: `chunks_[cp]` creates the chunk (empty
inner map) when absent, then `inner[lp] = v` creates or overwrites the
local entry. -/
def cmWrite (m : CMap V) (g : GPos) (v : V) : CMap V :=
  let k := splitC g
  setA m k.1 (setA ((lookupA m k.1).getD []) k.2 v)

/-- `chunk_map::insert`: `try_emplace` the chunk, then insert the local
entry only when the local key is absent (insert-if-absent). -/
def cmInsert (m : CMap V) (g : GPos) (v : V) : CMap V :=
  let k := splitC g
  let inner := (lookupA m k.1).getD []
  if (lookupA inner k.2).isSome then m
  else setA m k.1 (setA inner k.2 v)

/-- `chunk_map::erase`: 0 when chunk or local entry is missing; otherwise
remove the local entry and, when the inner map became empty, remove the
chunk node itself; returns 1. -/
def cmErase (m : CMap V) (g : GPos) : Nat × CMap V :=
  let k := splitC g
  match lookupA m k.1 with
  | none => (0, m)
  | some inner =>
    match lookupA inner k.2 with
    | none => (0, m)
    | some _ =>
      let inner2 := eraseA inner k.2
      if inner2.isEmpty then (1, eraseA m k.1) else (1, setA m k.1 inner2)

/-- `chunk_map::size`: the sum of the inner sizes, recomputed on demand. -/
def cmSize (m : CMap V) : Nat := (m.map (fun e => e.2.length)).sum

/-- `chunk_map::clear`: `chunks_.clear()`. -/
def cmClear (_ : CMap V) : CMap V := []

/-- `chunk_map::at`: find the chunk, then the local entry; `none` models
the `std::out_of_range` throw on either miss. -/
def cmAt (m : CMap V) (g : GPos) : Option V :=
  let k := splitC g
  match lookupA m k.1 with
  | none => none
  | some inner => lookupA inner k.2

/-- `chunk_map::at` with the state threaded through: the function only
calls `find` on the outer and inner maps, so the state comes back
untouched on every path, including both failure paths. -/
def cmAtSt (m : CMap V) (g : GPos) : Option V × CMap V :=
  let k := splitC g
  match lookupA m k.1 with
  | none => (none, m)
  | some inner =>
    match lookupA inner k.2 with
    | none => (none, m)
    | some v => (some v, m)

/-- Presence as reported by `chunk_map::find` (iterator not at `end()`). -/
def cmFindPresent (m : CMap V) (g : GPos) : Bool :=
  let k := splitC g
  match lookupA m k.1 with
  | none => false
  | some inner => (lookupA inner k.2).isSome

/-- The chunk-map invariant of the spec: no outer node holds an empty
inner map. -/
def ChunkInv (m : CMap V) : Prop := ∀ e ∈ m, e.2 ≠ []

lemma chunkInv_empty : ChunkInv ([] : CMap V) := by
  intro e he
  simp at he

lemma ChunkInv.write {m : CMap V} (h : ChunkInv m) (g : GPos) (v : V) :
    ChunkInv (cmWrite m g v) := by
  intro e he
  rcases mem_setA he with rfl | he2
  · exact setA_ne_nil _ _ _
  · exact h e he2

lemma ChunkInv.insert {m : CMap V} (h : ChunkInv m) (g : GPos) (v : V) :
    ChunkInv (cmInsert m g v) := by
  rw [cmInsert]
  split
  · exact h
  · intro e he
    rcases mem_setA he with rfl | he2
    · exact setA_ne_nil _ _ _
    · exact h e he2

lemma ChunkInv.erase {m : CMap V} (h : ChunkInv m) (g : GPos) :
    ChunkInv (cmErase m g).2 := by
  rw [cmErase]
  split
  · exact h
  · split
    · exact h
    · dsimp only
      split
      · intro e he
        exact h e (mem_eraseA he)
      · rename_i inner hinner hlocal inner2 hne
        intro e he
        rcases mem_setA he with rfl | he2
        · simpa [List.isEmpty_iff] using hne
        · exact h e he2

lemma chunkInv_clear (m : CMap V) : ChunkInv (cmClear m) := by
  intro e he
  simp [cmClear] at he

lemma cmAt_write_self (m : CMap V) (g : GPos) (v : V) :
    cmAt (cmWrite m g v) g = some v := by
  rw [cmAt, cmWrite]
  rw [lookupA_setA_self]
  exact lookupA_setA_self _ _ _

lemma cmAt_none_iff (m : CMap V) (g : GPos) :
    cmAt m g = none ↔ cmFindPresent m g = false := by
  rw [cmAt, cmFindPresent]
  cases h : lookupA m (splitC g).1 with
  | none => simp
  | some inner =>
    cases h2 : lookupA inner (splitC g).2 with
    | none => simp [h2]
    | some v => simp [h2]

lemma cmAtSt_frame (m : CMap V) (g : GPos) :
    cmAtSt m g = (cmAt m g, m) := by
  rw [cmAtSt, cmAt]
  cases h : lookupA m (splitC g).1 with
  | none => rfl
  | some inner =>
    cases h2 : lookupA inner (splitC g).2 with
    | none => simp [h2]
    | some v => simp [h2]

end ChunkMapModel

/-- C6: every public operation (indexed write, insert, erase, clear)
preserves the invariant that no chunk node has an empty inner map, the
invariant holds of the fresh map, and - concrete example B - erasing the
last occupied key of a chunk removes the chunk node on that erase, the
following `size()` excludes it, and a fresh write into the same chunk
recreates the node. -/
theorem chunk_map_no_empty_chunks :
    ChunkInv ([] : CMap Nat) ∧
    (∀ (m : CMap Nat) (g : GPos) (v : Nat), ChunkInv m → ChunkInv (cmWrite m g v)) ∧
    (∀ (m : CMap Nat) (g : GPos) (v : Nat), ChunkInv m → ChunkInv (cmInsert m g v)) ∧
    (∀ (m : CMap Nat) (g : GPos), ChunkInv m → ChunkInv (cmErase m g).2) ∧
    (∀ (m : CMap Nat), ChunkInv (cmClear m)) ∧
    cmErase (cmWrite ([] : CMap Nat) ⟨0, 0, 0⟩ 5) ⟨0, 0, 0⟩ = (1, []) ∧
    cmSize (cmErase (cmWrite ([] : CMap Nat) ⟨0, 0, 0⟩ 5) ⟨0, 0, 0⟩).2 = 0 ∧
    cmAt (cmWrite (cmErase (cmWrite ([] : CMap Nat) ⟨0, 0, 0⟩ 5) ⟨0, 0, 0⟩).2 ⟨0, 0, 0⟩ 7)
      ⟨0, 0, 0⟩ = some 7 :=
  ⟨chunkInv_empty,
   fun _ g v h => h.write g v,
   fun _ g v h => h.insert g v,
   fun _ g h => h.erase g,
   fun m => chunkInv_clear m,
   by decide, by decide, by decide⟩

/-- C7: dedup in `bucket_map` is bucket-local, not global. In every
reachable state, two present keys of the same 64-key bucket whose values
agree share one value-pool slot; and inserting the value 7 at key 1
(bucket 0) and key 65 (bucket 1) yields two distinct pool entries (slots
1 and 2, pool `[default, 7, 7]`), while the same two inserts at keys 1
and 2 of one bucket share a slot (pool `[default, 7]`). -/
theorem bucket_dedup_is_bucket_local :
    (∀ (ops : List (BmOp Nat)) (k1 k2 : Nat), k1 / 64 = k2 / 64 →
      bmContains (bmRun ops) k1 = true → bmContains (bmRun ops) k2 = true →
      bmAt (bmRun ops) k1 = bmAt (bmRun ops) k2 →
      bmValueIndexAt (bmRun ops) k1 = bmValueIndexAt (bmRun ops) k2) ∧
    (bmValueIndexAt (bmInsertOrAssign (bmInsertOrAssign (bmEmpty : BMap Nat) 1 7) 65 7) 1 = 1 ∧
     bmValueIndexAt (bmInsertOrAssign (bmInsertOrAssign (bmEmpty : BMap Nat) 1 7) 65 7) 65 = 2 ∧
     (bmInsertOrAssign (bmInsertOrAssign (bmEmpty : BMap Nat) 1 7) 65 7).values = [0, 7, 7]) ∧
    (bmValueIndexAt (bmInsertOrAssign (bmInsertOrAssign (bmEmpty : BMap Nat) 1 7) 2 7) 1 =
       bmValueIndexAt (bmInsertOrAssign (bmInsertOrAssign (bmEmpty : BMap Nat) 1 7) 2 7) 2 ∧
     (bmInsertOrAssign (bmInsertOrAssign (bmEmpty : BMap Nat) 1 7) 2 7).values = [0, 7]) :=
  ⟨fun ops k1 k2 hb h1 h2 hv => (bmRun_wf ops).shared_slot k1 k2 hb h1 h2 hv,
   ⟨by decide, by decide, by decide⟩,
   ⟨by decide, by decide⟩⟩

/-- C8: `bucket_map::at` and `chunk_map::at` raise NotFound (modelled as
`none`) exactly on absent keys; on a present key freshly assigned through
the public interface they return that value; and `chunk_map::at` leaves
the container unchanged on every path, failures included (in the
embedding, all operations other than `at` are total functions by type). -/
theorem at_raises_notfound_iff_absent :
    (∀ (s : BMap Nat) (k : Nat), bmAt s k = none ↔ bmContains s k = false) ∧
    (∀ (s : BMap Nat) (k : Nat) (v : Nat), BmWF s → bmAt (bmInsertOrAssign s k v) k = some v) ∧
    (∀ (m : CMap Nat) (g : GPos), cmAt m g = none ↔ cmFindPresent m g = false) ∧
    (∀ (m : CMap Nat) (g : GPos) (v : Nat), cmAt (cmWrite m g v) g = some v) ∧
    (∀ (m : CMap Nat) (g : GPos), cmAtSt m g = (cmAt m g, m)) :=
  ⟨fun s k => bmAt_none_iff s k,
   fun _ k v h => bmAt_insertOrAssign_self h k v,
   fun m g => cmAt_none_iff m g,
   fun m g v => cmAt_write_self m g v,
   fun m g => cmAtSt_frame m g⟩

/-- C9: `bucket_map::erase(key)` returns 1 exactly when the key was
present; afterwards the key is absent; the counter drops by one when it
was present and the whole state is unchanged when it was not; every other
key still maps to its old value; and the value pool is never compacted -
`values_` is untouched, so the erased key's old value stays in the pool. -/
theorem bucket_erase_clears_single_slot (s : BMap Nat) (k : Nat) :
    ((bmErase s k).1 = if bmContains s k then 1 else 0) ∧
    bmContains (bmErase s k).2 k = false ∧
    (bmContains s k = true → (bmErase s k).2.size = s.size - 1) ∧
    (bmContains s k = false → (bmErase s k).2 = s) ∧
    (∀ k2, k2 ≠ k → bmAt (bmErase s k).2 k2 = bmAt s k2) ∧
    (bmErase s k).2.values = s.values := by
  by_cases hidx : k / 64 < s.buckets.length
  · by_cases hbit : (s.buckets.getD (k / 64) []).getD (k % 64) 0 = 0
    · have hvia0 : bmValueIndexAt s k = 0 := by
        simp only [bmValueIndexAt]
        rw [if_pos hidx, hbit]
      have hcon : bmContains s k = false := by
        simp [bmContains, hvia0]
      have herase : bmErase s k = (0, s) := by
        rw [bmErase, if_pos hidx]
        dsimp only
        rw [if_pos hbit]
      refine ⟨?_, ?_, ?_, ?_, ?_, ?_⟩
      · rw [herase, hcon]
        simp
      · rw [herase]
        exact hcon
      · intro hc
        rw [hcon] at hc
        simp at hc
      · intro hc
        rw [herase]
      · intro k2 hk2
        rw [herase]
      · rw [herase]
    · have hviaeq : bmValueIndexAt s k = (s.buckets.getD (k / 64) []).getD (k % 64) 0 := by
        simp only [bmValueIndexAt]
        rw [if_pos hidx]
      have hcon : bmContains s k = true := by
        unfold bmContains
        rw [hviaeq]
        exact decide_eq_true hbit
      have hblt : k % 64 < (s.buckets.getD (k / 64) []).length := lt_length_of_getD_ne hbit
      have herase : bmErase s k =
          (1, ⟨s.buckets.set (k / 64) ((s.buckets.getD (k / 64) []).set (k % 64) 0),
               s.values, s.size - 1⟩) := by
        rw [bmErase, if_pos hidx]
        dsimp only
        rw [if_neg hbit]
      refine ⟨?_, ?_, ?_, ?_, ?_, ?_⟩
      · rw [herase, hcon]
        simp
      · rw [herase]
        simp only [bmContains, bmValueIndexAt, List.length_set]
        rw [if_pos hidx, getD_set_self _ hidx, getD_set_self _ hblt]
        simp
      · intro _
        rw [herase]
      · intro hc
        rw [hcon] at hc
        simp at hc
      · intro k2 hk2
        have hvia : bmValueIndexAt (bmErase s k).2 k2 = bmValueIndexAt s k2 := by
          rw [herase]
          simp only [bmValueIndexAt, List.length_set]
          by_cases hk2i : k2 / 64 < s.buckets.length
          · rw [if_pos hk2i, if_pos hk2i]
            by_cases hdiv : k2 / 64 = k / 64
            · rw [hdiv, getD_set_self _ hidx]
              have hmod : k2 % 64 ≠ k % 64 := by omega
              rw [getD_set_ne _ _ (fun hh => hmod hh.symm)]
            · rw [getD_set_ne _ _ (fun hh => hdiv hh.symm)]
          · rw [if_neg hk2i, if_neg hk2i]
        have hvals : (bmErase s k).2.values = s.values := by rw [herase]
        rw [bmAt, bmAt, hvia, hvals]
      · rw [herase]
  · have hvia0 : bmValueIndexAt s k = 0 := by
      simp only [bmValueIndexAt]
      rw [if_neg hidx]
    have hcon : bmContains s k = false := by
      simp [bmContains, hvia0]
    have herase : bmErase s k = (0, s) := by
      rw [bmErase, if_neg hidx]
    refine ⟨?_, ?_, ?_, ?_, ?_, ?_⟩
    · rw [herase, hcon]
      simp
    · rw [herase]
      exact hcon
    · intro hc
      rw [hcon] at hc
      simp at hc
    · intro hc
      rw [herase]
    · intro k2 hk2
      rw [herase]
    · rw [herase]

/-- Witness for C9 at a concrete state: erasing key 1 from the map holding
7 at key 1 returns 1, empties the slot, keeps the pool, and leaves key 2
(holding 9) intact. -/
theorem bucket_erase_clears_single_slot_witness :
    ((bmErase (bmInsertOrAssign (bmInsertOrAssign (bmEmpty : BMap Nat) 1 7) 2 9) 1).1 =
       if bmContains (bmInsertOrAssign (bmInsertOrAssign (bmEmpty : BMap Nat) 1 7) 2 9) 1
       then 1 else 0) ∧
    bmContains (bmErase (bmInsertOrAssign (bmInsertOrAssign (bmEmpty : BMap Nat) 1 7) 2 9) 1).2
      1 = false ∧
    (bmContains (bmInsertOrAssign (bmInsertOrAssign (bmEmpty : BMap Nat) 1 7) 2 9) 1 = true →
      (bmErase (bmInsertOrAssign (bmInsertOrAssign (bmEmpty : BMap Nat) 1 7) 2 9) 1).2.size =
        (bmInsertOrAssign (bmInsertOrAssign (bmEmpty : BMap Nat) 1 7) 2 9).size - 1) ∧
    (bmContains (bmInsertOrAssign (bmInsertOrAssign (bmEmpty : BMap Nat) 1 7) 2 9) 1 = false →
      (bmErase (bmInsertOrAssign (bmInsertOrAssign (bmEmpty : BMap Nat) 1 7) 2 9) 1).2 =
        bmInsertOrAssign (bmInsertOrAssign (bmEmpty : BMap Nat) 1 7) 2 9) ∧
    (∀ k2, k2 ≠ 1 →
      bmAt (bmErase (bmInsertOrAssign (bmInsertOrAssign (bmEmpty : BMap Nat) 1 7) 2 9) 1).2 k2 =
        bmAt (bmInsertOrAssign (bmInsertOrAssign (bmEmpty : BMap Nat) 1 7) 2 9) k2) ∧
    (bmErase (bmInsertOrAssign (bmInsertOrAssign (bmEmpty : BMap Nat) 1 7) 2 9) 1).2.values =
      (bmInsertOrAssign (bmInsertOrAssign (bmEmpty : BMap Nat) 1 7) 2 9).values :=
  bucket_erase_clears_single_slot (bmInsertOrAssign (bmInsertOrAssign bmEmpty 1 7) 2 9) 1

/-- An injective encoding of positions, used only to give `GPos` a linear
order so that `*remaining.begin()` (the dead single-voxel fallback of the
CECD loop) can pick a definite element. -/
def gposKey (p : GPos) : Nat := Nat.pair (Nat.pair p.x p.y) p.z

lemma gposKey_inj : Function.Injective gposKey := by
  intro a b h
  rw [gposKey, gposKey, Nat.pair_eq_pair] at h
  obtain ⟨h1, h2⟩ := h
  rw [Nat.pair_eq_pair] at h1
  cases a; cases b; simp_all

instance : LinearOrder GPos := LinearOrder.lift' gposKey gposKey_inj

/-- `static_cast<int>` of a `uint32_t` coordinate (layered_map_algo.h
`offset`): values at or above `2^31` map to their negative two's-complement
reading. A coordinate beyond `2^32` is first reduced modulo `2^32`, the
`uint32_t` range of positions.h. -/
def toInt32 (a : Nat) : Int :=
  if a % 4294967296 < 2147483648 then ((a % 4294967296 : Nat) : Int)
  else ((a % 4294967296 : Nat) : Int) - 4294967296

/-- One component of `offset`: `int v = static_cast<int>(a) + d; if (v < 0)
return false; res = static_cast<std::uint32_t>(v);`. -/
def addComp (a : Nat) (d : Int) : Option Nat :=
  if toInt32 a + d < 0 then none else some (((toInt32 a + d) % 4294967296).toNat)

/-- `offset(p, dx, dy, dz, out)`: all three components must stay
non-negative, else the step reports failure. -/
def offsetP (p : GPos) (d : Int × Int × Int) : Option GPos :=
  match addComp p.x d.1, addComp p.y d.2.1, addComp p.z d.2.2 with
  | some nx, some ny, some nz => some ⟨nx, ny, nz⟩
  | _, _, _ => none

/-- `cardinal_offsets`: the six face directions, in source order. -/
def cardinalOffsets : List (Int × Int × Int) :=
  [(1, 0, 0), (-1, 0, 0), (0, 1, 0), (0, -1, 0), (0, 0, 1), (0, 0, -1)]

/-- The successful offset steps from a voxel. -/
def neighborList (p : GPos) : List GPos := cardinalOffsets.filterMap (offsetP p)

/-- `extrude`: the input voxels plus every reachable face-neighbor (the
CECD layers carry values along unchanged; membership alone drives every
branch of the algorithm, so voxel maps are embedded as their key sets). -/
def extrudeS (m : Finset GPos) : Finset GPos :=
  m ∪ m.biUnion (fun p => (neighborList p).toFinset)

/-- The `all_neighbors` test of `inset`: every one of the six face steps
must succeed and land on a present voxel. -/
def hasAllNeighbors (m : Finset GPos) (p : GPos) : Bool :=
  cardinalOffsets.all fun d =>
    match offsetP p d with
    | none => false
    | some n => n ∈ m

/-- `inset`: keep the voxels whose six face-neighbors are all present. -/
def insetS (m : Finset GPos) : Finset GPos := m.filter (fun p => hasAllNeighbors m p = true)

lemma toInt32_of_lt {a : Nat} (h : a % 4294967296 < 2147483648) :
    toInt32 a = ((a % 4294967296 : Nat) : Int) := by
  rw [toInt32, if_pos h]

lemma toInt32_of_ge {a : Nat} (h : 2147483648 ≤ a % 4294967296) :
    toInt32 a = ((a % 4294967296 : Nat) : Int) - 4294967296 := by
  rw [toInt32, if_neg (by omega)]

lemma addComp_neg_one_none {a : Nat}
    (h : a % 4294967296 = 0 ∨ 2147483648 ≤ a % 4294967296) :
    addComp a (-1) = none := by
  have hr : a % 4294967296 < 4294967296 := Nat.mod_lt _ (by norm_num)
  rcases h with h | h
  · rw [addComp, toInt32_of_lt (by omega), if_pos (by rw [h]; norm_num)]
  · rw [addComp, toInt32_of_ge h, if_pos (by push_cast; omega)]

lemma addComp_zero_none {a : Nat} (h : 2147483648 ≤ a % 4294967296) :
    addComp a 0 = none := by
  have hr : a % 4294967296 < 4294967296 := Nat.mod_lt _ (by norm_num)
  rw [addComp, toInt32_of_ge h, if_pos (by push_cast; omega)]

lemma addComp_zero_some {a : Nat} (h : a % 4294967296 < 2147483648) :
    addComp a 0 = some (a % 4294967296) := by
  rw [addComp, toInt32_of_lt h, if_neg (by push_cast; omega)]
  congr 1
  rw [Int.add_zero, Int.emod_eq_of_lt (by positivity) (by push_cast; omega)]
  omega

lemma addComp_one_some {a : Nat} (h : a % 4294967296 < 2147483648) :
    addComp a 1 = some (a % 4294967296 + 1) := by
  rw [addComp, toInt32_of_lt h, if_neg (by push_cast; omega)]
  congr 1
  rw [Int.emod_eq_of_lt (by positivity) (by push_cast; omega)]
  push_cast
  omega

lemma offsetP_none_x {p : GPos} {d : Int × Int × Int} (h : addComp p.x d.1 = none) :
    offsetP p d = none := by
  unfold offsetP
  rw [h]

lemma offsetP_none_y {p : GPos} {d : Int × Int × Int} (h : addComp p.y d.2.1 = none) :
    offsetP p d = none := by
  unfold offsetP
  rw [h]
  cases addComp p.x d.1 <;> rfl

lemma offsetP_none_z {p : GPos} {d : Int × Int × Int} (h : addComp p.z d.2.2 = none) :
    offsetP p d = none := by
  unfold offsetP
  rw [h]
  cases addComp p.x d.1 <;> cases addComp p.y d.2.1 <;> rfl

lemma offsetP_some {p : GPos} {d : Int × Int × Int} {nx ny nz : Nat}
    (hx : addComp p.x d.1 = some nx) (hy : addComp p.y d.2.1 = some ny)
    (hz : addComp p.z d.2.2 = some nz) :
    offsetP p d = some ⟨nx, ny, nz⟩ := by
  unfold offsetP
  rw [hx, hy, hz]

lemma hasAllNeighbors_iff (m : Finset GPos) (p : GPos) :
    hasAllNeighbors m p = true ↔
      ∀ d ∈ cardinalOffsets, ∃ n, offsetP p d = some n ∧ n ∈ m := by
  rw [hasAllNeighbors, List.all_eq_true]
  apply forall_congr'
  intro d
  apply imp_congr_right
  intro _
  cases h : offsetP p d with
  | none => simp [h]
  | some n => simp [h]

lemma insetS_subset (m : Finset GPos) : insetS m ⊆ m := Finset.filter_subset _ _

-- Erosion makes strict progress on every non-empty set: a voxel whose
-- x-coordinate (read as uint32_t) is maximal is always removed - its -x
-- step fails when the coordinate reads 0 or negative as an int, and
-- otherwise its +x neighbor cannot be present.
set_option maxHeartbeats 1000000 in
lemma insetS_ssubset (m : Finset GPos) (hm : m.Nonempty) : insetS m ⊂ m := by
  rw [Finset.ssubset_iff_of_subset (insetS_subset m)]
  have himg : (m.image (fun p => p.x % 4294967296)).Nonempty := hm.image _
  obtain ⟨p, hp, hpx⟩ := Finset.mem_image.mp ((m.image (fun p => p.x % 4294967296)).max'_mem himg)
  refine ⟨p, hp, ?_⟩
  rw [insetS, Finset.mem_filter]
  rintro ⟨-, hall⟩
  rw [hasAllNeighbors_iff] at hall
  by_cases hx : p.x % 4294967296 = 0 ∨ 2147483648 ≤ p.x % 4294967296
  · obtain ⟨n, hn, -⟩ := hall (-1, 0, 0) (by simp [cardinalOffsets])
    rw [offsetP_none_x (addComp_neg_one_none hx)] at hn
    cases hn
  · by_cases hy : p.y % 4294967296 = 0 ∨ 2147483648 ≤ p.y % 4294967296
    · obtain ⟨n, hn, -⟩ := hall (0, -1, 0) (by simp [cardinalOffsets])
      rw [offsetP_none_y (addComp_neg_one_none hy)] at hn
      cases hn
    · by_cases hz : p.z % 4294967296 = 0 ∨ 2147483648 ≤ p.z % 4294967296
      · obtain ⟨n, hn, -⟩ := hall (0, 0, -1) (by simp [cardinalOffsets])
        rw [offsetP_none_z (addComp_neg_one_none hz)] at hn
        cases hn
      · push_neg at hx hy hz
        obtain ⟨n, hn, hnm⟩ := hall (1, 0, 0) (by simp [cardinalOffsets])
        rw [offsetP_some (addComp_one_some hx.2) (addComp_zero_some hy.2)
          (addComp_zero_some hz.2)] at hn
        obtain rfl := Option.some.inj hn
        have hmem : (p.x % 4294967296 + 1) % 4294967296 ∈
            Finset.image (fun p => p.x % 4294967296) m := by
          refine Finset.mem_image.mpr ⟨_, hnm, ?_⟩
          rfl
        have hle : (p.x % 4294967296 + 1) % 4294967296 ≤
            (Finset.image (fun p => p.x % 4294967296) m).max' himg :=
          Finset.le_max' _ _ hmem
        have hmod : (p.x % 4294967296 + 1) % 4294967296 = p.x % 4294967296 + 1 :=
          Nat.mod_eq_of_lt (by omega)
        omega

/-- `detect_core`: starting from `prev = cur = map`, erode (`cur =
inset(cur)`) while `cur` is non-empty and return `prev`, the last
non-empty iterate - the input itself when the first inset is already
empty. -/
def detectCore (m : Finset GPos) : Finset GPos :=
  if h : m = ∅ then m
  else if insetS m = ∅ then m
  else detectCore (insetS m)
  termination_by m.card
  decreasing_by
    exact Finset.card_lt_card (insetS_ssubset m (Finset.nonempty_iff_ne_empty.mpr h))

lemma detectCore_subset (m : Finset GPos) : detectCore m ⊆ m := by
  induction m using detectCore.induct with
  | case1 =>
    rw [detectCore, dif_pos rfl]
  | case2 m h1 h2 =>
    rw [detectCore, dif_neg h1, if_pos h2]
  | case3 m h1 h2 ih =>
    rw [detectCore, dif_neg h1, if_neg h2]
    exact ih.trans (insetS_subset m)

lemma detectCore_eq_empty (m : Finset GPos) : detectCore m = ∅ → m = ∅ := by
  induction m using detectCore.induct with
  | case1 =>
    intro _
    rfl
  | case2 m h1 h2 =>
    rw [detectCore, dif_neg h1, if_pos h2]
    exact fun hh => hh
  | case3 m h1 h2 ih =>
    rw [detectCore, dif_neg h1, if_neg h2]
    intro hh
    exact absurd (ih hh) h2

lemma detectCore_ne_empty {m : Finset GPos} (h : m ≠ ∅) : detectCore m ≠ ∅ :=
  fun hc => h (detectCore_eq_empty m hc)

lemma detectCore_of_inset_empty {m : Finset GPos} (h1 : m ≠ ∅) (h2 : insetS m = ∅) :
    detectCore m = m := by
  rw [detectCore, dif_neg h1, if_pos h2]

/-- `expand_convex`'s loop: extrude the frontier, keep what lands in
`remaining`, insert into the hull; stop when the hull's size did not
grow, else continue with the added voxels as the new frontier. -/
def expandConvex (hull front remaining : Finset GPos) : Finset GPos :=
  let added := extrudeS front ∩ remaining
  if (hull ∪ added).card = hull.card then hull
  else expandConvex (hull ∪ added) added remaining
  termination_by (remaining \ hull).card
  decreasing_by
    rename_i hcard
    have hsub : remaining \ (hull ∪ added) ⊆ remaining \ hull :=
      Finset.sdiff_subset_sdiff (Finset.Subset.refl _) Finset.subset_union_left
    have hex : ¬ added ⊆ hull := by
      intro hs
      exact hcard (by rw [Finset.union_eq_left.mpr hs])
    obtain ⟨a, ha, hah⟩ := Finset.not_subset.mp hex
    refine Finset.card_lt_card ⟨hsub, fun hsup => ?_⟩
    have ham : a ∈ remaining := (Finset.mem_inter.mp ha).2
    have h1 : a ∈ remaining \ hull := Finset.mem_sdiff.mpr ⟨ham, hah⟩
    have h2 := hsup h1
    rw [Finset.mem_sdiff] at h2
    exact h2.2 (Finset.mem_union_right _ ha)

lemma expandConvex_superset (hull front remaining : Finset GPos) :
    hull ⊆ expandConvex hull front remaining := by
  induction hull, front, remaining using expandConvex.induct with
  | case1 hull front remaining added =>
    rename_i hcond
    rw [expandConvex, if_pos hcond]
  | case2 hull front remaining added =>
    rename_i hcond ih
    rw [expandConvex, if_neg hcond]
    exact Finset.subset_union_left.trans ih

lemma expandConvex_subset (hull front remaining : Finset GPos) :
    expandConvex hull front remaining ⊆ hull ∪ remaining := by
  induction hull, front, remaining using expandConvex.induct with
  | case1 hull front remaining added =>
    rename_i hcond
    rw [expandConvex, if_pos hcond]
    exact Finset.subset_union_left
  | case2 hull front remaining added =>
    rename_i hcond ih
    rw [expandConvex, if_neg hcond]
    refine ih.trans ?_
    intro x hx
    rcases Finset.mem_union.mp hx with hx2 | hx2
    · rcases Finset.mem_union.mp hx2 with hx3 | hx3
      · exact Finset.mem_union_left _ hx3
      · exact Finset.mem_union_right _ (Finset.mem_inter.mp hx3).2
    · exact Finset.mem_union_right _ hx2

/-- The core actually used by one CECD outer iteration: `detect_core` of
the remaining set, with the source's fallback `if (core.empty())
core.insert(*remaining.begin());` - modelled by the least element under
the position order. -/
def cecdCore (m : Finset GPos) (h : m ≠ ∅) : Finset GPos :=
  let core := detectCore m
  if core = ∅ then {m.min' (Finset.nonempty_iff_ne_empty.mpr h)} else core

lemma cecdCore_subset (m : Finset GPos) (h : m ≠ ∅) : cecdCore m h ⊆ m := by
  rw [cecdCore]
  split
  · rw [Finset.singleton_subset_iff]
    exact Finset.min'_mem m _
  · exact detectCore_subset m

lemma cecdCore_ne_empty (m : Finset GPos) (h : m ≠ ∅) : cecdCore m h ≠ ∅ := by
  rw [cecdCore]
  split
  · simp
  · assumption

/-- `core_expanding_convex_decomposition`: while voxels remain, detect a
core, grow a hull, emit it as a layer and subtract it from the remaining
set (the progress guard `if (hull.empty()) break` included). -/
def cecd (m : Finset GPos) : List (Finset GPos) :=
  if hm : m = ∅ then []
  else
    let hull := expandConvex (cecdCore m hm) (cecdCore m hm) m
    if hh : hull = ∅ then []
    else hull :: cecd (m \ hull)
  termination_by m.card
  decreasing_by
    have hsub : hull ⊆ m :=
      (expandConvex_subset _ _ _).trans
        (Finset.union_subset (cecdCore_subset m hm) (Finset.Subset.refl m))
    exact Finset.card_lt_card
      (Finset.sdiff_ssubset hsub (Finset.nonempty_iff_ne_empty.mpr hh))

/-- The CECD outer loop emits at most `|V|` layers: each emitted layer
contains the (non-empty) core, which is removed from the remaining set,
so the layer list is no longer than the input's size. -/
lemma cecd_length_le_card (m : Finset GPos) :
    (cecd m).length ≤ m.card := by
  induction m using cecd.induct with
  | case1 =>
    rw [cecd, dif_pos rfl]
    simp
  | case2 m hm hull hh =>
    rw [cecd, dif_neg hm, dif_pos hh]
    simp
  | case3 m hm hull hh ih =>
    rw [cecd, dif_neg hm, dif_neg hh]
    have hsub : hull ⊆ m :=
      (expandConvex_subset _ _ _).trans
        (Finset.union_subset (cecdCore_subset m hm) (Finset.Subset.refl m))
    have hlt : (m \ hull).card < m.card :=
      Finset.card_lt_card
        (Finset.sdiff_ssubset hsub (Finset.nonempty_iff_ne_empty.mpr hh))
    have ih2 : (cecd (m \ expandConvex (cecdCore m hm) (cecdCore m hm) m)).length ≤
        (m \ expandConvex (cecdCore m hm) (cecdCore m hm) m).card := ih
    have hlt2 : (m \ expandConvex (cecdCore m hm) (cecdCore m hm) m).card < m.card := hlt
    rw [List.length_cons]
    omega

/-- C3 (amended): when the working set is non-empty but its inset is
empty, `detect_core` returns the last non-empty erosion iterate - the
entire working set - so the core used for hull growth is the whole
remaining set, not a single voxel; the single-voxel fallback branch is
dead code, because `detect_core` never returns an empty set for a
non-empty input. -/
theorem detect_core_whole_set_when_no_interior :
    (∀ (m : Finset GPos) (h : m ≠ ∅), insetS m = ∅ → cecdCore m h = m) ∧
    (∀ (m : Finset GPos) (h : m ≠ ∅), cecdCore m h ≠ ∅ ∧ detectCore m ≠ ∅) := by
  constructor
  · intro m h hins
    rw [cecdCore, detectCore_of_inset_empty h hins, if_neg h]
  · intro m h
    exact ⟨cecdCore_ne_empty m h, detectCore_ne_empty h⟩

/-- C3 counterexample: the two-voxel bar {(1,1,1), (2,1,1)} has an empty
inset, yet the core used for hull growth is the whole two-voxel set - not
a single arbitrary voxel as claimed. -/
theorem cecd_core_whole_at_flat_pair :
    insetS ({⟨1, 1, 1⟩, ⟨2, 1, 1⟩} : Finset GPos) = ∅ ∧
    cecdCore ({⟨1, 1, 1⟩, ⟨2, 1, 1⟩} : Finset GPos) (by decide) =
      ({⟨1, 1, 1⟩, ⟨2, 1, 1⟩} : Finset GPos) ∧
    ({⟨1, 1, 1⟩, ⟨2, 1, 1⟩} : Finset GPos).card = 2 := by
  refine ⟨by decide, ?_, by decide⟩
  rw [cecdCore, detectCore_of_inset_empty (by decide) (by decide), if_neg (by decide)]

/-- C10: neighbor stepping clamps at the zero boundary instead of
wrapping - `offset` fails whenever a (in-`int`-range) coordinate would go
below 0, `inset` therefore removes every voxel with a coordinate equal to
0 (the missing below-zero neighbor counts as absent), and every key
`extrude` produces is either an input voxel or the target of a
successful clamped offset step from one. -/
theorem offset_clamps_at_zero_boundary :
    (∀ (a : Nat) (d : Int), a < 2147483648 → (a : Int) + d < 0 → addComp a d = none) ∧
    (∀ (m : Finset GPos) (p : GPos), (p.x = 0 ∨ p.y = 0 ∨ p.z = 0) → p ∉ insetS m) ∧
    (∀ (m : Finset GPos) (q : GPos), q ∈ extrudeS m →
      q ∈ m ∨ ∃ p ∈ m, ∃ d ∈ cardinalOffsets, offsetP p d = some q) := by
  refine ⟨?_, ?_, ?_⟩
  · intro a d ha hneg
    have hmod : a % 4294967296 = a := Nat.mod_eq_of_lt (by omega)
    rw [addComp, toInt32_of_lt (by omega), hmod, if_pos hneg]
  · intro m p hp
    rw [insetS, Finset.mem_filter]
    rintro ⟨-, hall⟩
    rw [hasAllNeighbors_iff] at hall
    rcases hp with hp | hp | hp
    · obtain ⟨n, hn, -⟩ := hall (-1, 0, 0) (by simp [cardinalOffsets])
      rw [offsetP_none_x (addComp_neg_one_none (Or.inl (by rw [hp])))] at hn
      cases hn
    · obtain ⟨n, hn, -⟩ := hall (0, -1, 0) (by simp [cardinalOffsets])
      rw [offsetP_none_y (addComp_neg_one_none (Or.inl (by rw [hp])))] at hn
      cases hn
    · obtain ⟨n, hn, -⟩ := hall (0, 0, -1) (by simp [cardinalOffsets])
      rw [offsetP_none_z (addComp_neg_one_none (Or.inl (by rw [hp])))] at hn
      cases hn
  · intro m q hq
    rw [extrudeS, Finset.mem_union] at hq
    rcases hq with hq | hq
    · exact Or.inl hq
    · obtain ⟨p, hp, hq2⟩ := Finset.mem_biUnion.mp hq
      rw [List.mem_toFinset, neighborList, List.mem_filterMap] at hq2
      obtain ⟨d, hd, hoff⟩ := hq2
      exact Or.inr ⟨p, hp, d, hd, hoff⟩

/-- Bound on the Morton interleave accumulator: or-ing in single bits at
positions `3b`, `3b+1`, `3b+2` for `b < 10` never leaves the 30-bit range. -/
lemma mortonFold_lt (x y z : Nat) (l : List Nat) :
    ∀ init : Nat, init < 2 ^ 30 → (∀ b ∈ l, b < 10) →
      l.foldl
        (fun out bit =>
          ((out ||| (((x >>> bit) &&& 1) <<< (3 * bit)))
             ||| (((y >>> bit) &&& 1) <<< (3 * bit + 1)))
             ||| (((z >>> bit) &&& 1) <<< (3 * bit + 2))) init < 2 ^ 30 := by
  induction l with
  | nil =>
    intro init h _
    exact h
  | cons b t ih =>
    intro init hinit hl
    rw [List.foldl_cons]
    refine ih _ ?_ (fun c hc => hl c (List.mem_cons_of_mem _ hc))
    have hb : b < 10 := hl b (List.mem_cons_self b t)
    have step : ∀ (c j : Nat), j ≤ 29 → ((c >>> b) &&& 1) <<< j < 2 ^ 30 := by
      intro c j hj
      rw [Nat.shiftLeft_eq]
      have h1 : (c >>> b) &&& 1 ≤ 1 := Nat.and_le_right
      have h2 : (2 : Nat) ^ j ≤ 2 ^ 29 := Nat.pow_le_pow_right (by norm_num) hj
      calc ((c >>> b) &&& 1) * 2 ^ j ≤ 1 * 2 ^ j := Nat.mul_le_mul_right _ h1
        _ = 2 ^ j := one_mul _
        _ ≤ 2 ^ 29 := h2
        _ < 2 ^ 30 := by norm_num
    exact Nat.or_lt_two_pow
      (Nat.or_lt_two_pow (Nat.or_lt_two_pow hinit (step x _ (by omega))) (step y _ (by omega)))
      (step z _ (by omega))

/-- A Morton code is a 30-bit value. -/
lemma mortonEncode_lt (x y z : Nat) : mortonEncode x y z < 2 ^ 30 := by
  unfold mortonEncode
  exact mortonFold_lt x y z (List.range 10) 0 (by norm_num) (by simp)

/-- `morton_encode` reads only the ten low bits of each coordinate. -/
lemma mortonEncode_mod (x y z : Nat) :
    mortonEncode x y z = mortonEncode (x % 1024) (y % 1024) (z % 1024) := by
  apply Nat.eq_of_testBit_eq
  intro i
  have h1024 : (1024 : Nat) = 2 ^ 10 := by norm_num
  by_cases hi : i < 30
  · have h3 : i % 3 = 0 ∨ i % 3 = 1 ∨ i % 3 = 2 := by omega
    rcases h3 with h3 | h3 | h3
    · obtain ⟨b, hb, rfl⟩ : ∃ b, b < 10 ∧ i = 3 * b := ⟨i / 3, by omega, by omega⟩
      rw [mortonEncode_testBit_x _ _ _ _ hb, mortonEncode_testBit_x _ _ _ _ hb,
        h1024, Nat.testBit_mod_two_pow]
      simp [hb]
    · obtain ⟨b, hb, rfl⟩ : ∃ b, b < 10 ∧ i = 3 * b + 1 := ⟨i / 3, by omega, by omega⟩
      rw [mortonEncode_testBit_y _ _ _ _ hb, mortonEncode_testBit_y _ _ _ _ hb,
        h1024, Nat.testBit_mod_two_pow]
      simp [hb]
    · obtain ⟨b, hb, rfl⟩ : ∃ b, b < 10 ∧ i = 3 * b + 2 := ⟨i / 3, by omega, by omega⟩
      rw [mortonEncode_testBit_z _ _ _ _ hb, mortonEncode_testBit_z _ _ _ _ hb,
        h1024, Nat.testBit_mod_two_pow]
      simp [hb]
  · rw [Nat.testBit_lt_two_pow, Nat.testBit_lt_two_pow]
    · exact lt_of_lt_of_le (mortonEncode_lt _ _ _) (Nat.pow_le_pow_right (by norm_num) (by omega))
    · exact lt_of_lt_of_le (mortonEncode_lt _ _ _) (Nat.pow_le_pow_right (by norm_num) (by omega))

/-- The key `chunk_map::find` actually compares: the outer `std::map`
locates the chunk by the comparator equivalence of `ChunkPosition`
(`operator<=>` compares `morton_encode` of the shifted coordinates), and
the inner bucket map indexes the local position by its Morton code
(`operator std::size_t`). Two global positions collide exactly when both
components of `split` agree. -/
def sameKey (q p : GPos) : Prop := splitC q = splitC p

instance (q p : GPos) : Decidable (sameKey q p) :=
  inferInstanceAs (Decidable (splitC q = splitC p))

/-- Membership as `layered_map::find` reports it (`find(n) != cend()`):
some stored voxel shares both Morton key components with `n`. -/
def memC (m : Finset GPos) (p : GPos) : Bool := decide (∃ q ∈ m, sameKey q p)

/-- The `all_neighbors` test of `inset` with the container's own `find`:
every face step must succeed and `find` must locate the target's key. -/
def hasAllNeighborsC (m : Finset GPos) (p : GPos) : Bool :=
  cardinalOffsets.all fun d =>
    match offsetP p d with
    | none => false
    | some n => memC m n

/-- `inset` as the program executes it: keep the voxels whose six face
steps succeed and whose targets `find` locates - by Morton key
equivalence, not by exact coordinate equality. -/
def insetC (m : Finset GPos) : Finset GPos := m.filter (fun p => hasAllNeighborsC m p = true)

/-- The full-period torus: every position whose three coordinates all lie
in `[32768, 65535]`. Chunk codes read ten bits of `coord >> 5` and local
codes five bits, so find keys repeat with period `2^15` per axis, and
this set covers one complete period. -/
def aliasTorus : Finset GPos :=
  ((Finset.Icc 32768 65535) ×ˢ ((Finset.Icc 32768 65535) ×ˢ (Finset.Icc 32768 65535))).image
    (fun t => ⟨t.1, t.2.1, t.2.2⟩)

attribute [irreducible] aliasTorus

lemma shiftRight5_mod {a b : Nat} (h : a % 32768 = b % 32768) :
    (a >>> 5) % 1024 = (b >>> 5) % 1024 := by
  rw [Nat.shiftRight_eq_div_pow, Nat.shiftRight_eq_div_pow]
  norm_num
  omega

lemma and31_mod (a : Nat) : a &&& 31 = a % 32 := by
  have := Nat.and_pow_two_sub_one_eq_mod a 5
  norm_num at this
  exact this

/-- Positions whose coordinates agree modulo `2^15` per axis share the
find key: the chunk code sees `coord >> 5` only modulo `2^10` and the
local code is `coord` modulo `2^5`. -/
lemma sameKey_of_congr {q p : GPos}
    (hx : q.x % 32768 = p.x % 32768) (hy : q.y % 32768 = p.y % 32768)
    (hz : q.z % 32768 = p.z % 32768) : sameKey q p := by
  have e1 : q.x % 32 = p.x % 32 := by omega
  have e2 : q.y % 32 = p.y % 32 := by omega
  have e3 : q.z % 32 = p.z % 32 := by omega
  simp only [sameKey, splitC, Prod.mk.injEq]
  constructor
  · rw [mortonEncode_mod (q.x >>> 5), mortonEncode_mod (p.x >>> 5),
      shiftRight5_mod hx, shiftRight5_mod hy, shiftRight5_mod hz]
  · simp only [and31_mod]
    rw [e1, e2, e3]

/-- Below `2^15` per axis the find key is injective, so `find` equivalence
coincides with exact equality. -/
lemma sameKey_eq_below {q p : GPos}
    (hqx : q.x < 32768) (hqy : q.y < 32768) (hqz : q.z < 32768)
    (hpx : p.x < 32768) (hpy : p.y < 32768) (hpz : p.z < 32768)
    (h : sameKey q p) : q = p := by
  simp only [sameKey, splitC, Prod.mk.injEq] at h
  obtain ⟨hc, hl⟩ := h
  have hb : ∀ a : Nat, a < 32768 → a >>> 5 < 1024 := by
    intro a ha
    rw [Nat.shiftRight_eq_div_pow]
    omega
  have hl31 : ∀ a : Nat, a &&& 31 < 1024 := by
    intro a
    have := Nat.and_le_right (n := a) (m := 31)
    omega
  obtain ⟨c1, c2, c3⟩ := mortonEncode_inj (hb _ hqx) (hb _ hqy) (hb _ hqz)
    (hb _ hpx) (hb _ hpy) (hb _ hpz) hc
  obtain ⟨l1, l2, l3⟩ := mortonEncode_inj (hl31 q.x) (hl31 q.y) (hl31 q.z)
    (hl31 p.x) (hl31 p.y) (hl31 p.z) hl
  simp only [Nat.shiftRight_eq_div_pow] at c1 c2 c3
  norm_num at c1 c2 c3
  simp only [and31_mod] at l1 l2 l3
  have ex : q.x = p.x := by omega
  have ey : q.y = p.y := by omega
  have ez : q.z = p.z := by omega
  cases q; cases p
  simp_all

/-- On sets and probes with coordinates below `2^15`, `find` membership is
exact membership. -/
lemma memC_iff_mem_below {m : Finset GPos}
    (hm : ∀ q ∈ m, q.x < 32768 ∧ q.y < 32768 ∧ q.z < 32768)
    {p : GPos} (h1 : p.x < 32768) (h2 : p.y < 32768) (h3 : p.z < 32768) :
    memC m p = true ↔ p ∈ m := by
  simp only [memC, decide_eq_true_eq]
  constructor
  · rintro ⟨q, hqm, hqk⟩
    obtain ⟨b1, b2, b3⟩ := hm q hqm
    rwa [← sameKey_eq_below b1 b2 b3 h1 h2 h3 hqk]
  · intro hpm
    exact ⟨p, hpm, rfl⟩

lemma hasAllNeighborsC_iff (m : Finset GPos) (p : GPos) :
    hasAllNeighborsC m p = true ↔
      ∀ d ∈ cardinalOffsets, ∃ n, offsetP p d = some n ∧ memC m n = true := by
  rw [hasAllNeighborsC, List.all_eq_true]
  apply forall_congr'
  intro d
  apply imp_congr_right
  intro _
  cases h : offsetP p d with
  | none => simp [h]
  | some n => simp [h]

lemma addComp_zero_some' {a : Nat} (h : a < 2147483648) : addComp a 0 = some a := by
  have hm : a % 4294967296 = a := Nat.mod_eq_of_lt (by omega)
  rw [addComp_zero_some (by omega), hm]

lemma addComp_one_some' {a : Nat} (h : a < 2147483648) : addComp a 1 = some (a + 1) := by
  have hm : a % 4294967296 = a := Nat.mod_eq_of_lt (by omega)
  rw [addComp_one_some (by omega), hm]

lemma addComp_neg_one_some' {a : Nat} (h1 : 1 ≤ a) (h2 : a < 2147483648) :
    addComp a (-1) = some (a - 1) := by
  have hm : a % 4294967296 = a := Nat.mod_eq_of_lt (by omega)
  rw [addComp, toInt32_of_lt (by omega), hm, if_neg (by omega)]
  congr 1
  rw [Int.emod_eq_of_lt (by omega) (by omega)]
  omega

-- On an alias-free working set (coordinates below `2^15 - 1`, so every
-- face probe stays below `2^15`), the program's neighbor test agrees with
-- the exact-membership one.
set_option maxHeartbeats 1600000 in
lemma hasAllNeighborsC_eq_below {m : Finset GPos}
    (hm : ∀ q ∈ m, q.x < 32768 ∧ q.y < 32768 ∧ q.z < 32768)
    {p : GPos} (hx : p.x < 32767) (hy : p.y < 32767) (hz : p.z < 32767) :
    hasAllNeighborsC m p = hasAllNeighbors m p := by
  have hxb : p.x < 2147483648 := by omega
  have hyb : p.y < 2147483648 := by omega
  have hzb : p.z < 2147483648 := by omega
  have key : hasAllNeighborsC m p = true ↔ hasAllNeighbors m p = true := by
    rw [hasAllNeighborsC_iff, hasAllNeighbors_iff]
    apply forall_congr'
    intro d
    apply imp_congr_right
    intro hd
    simp only [cardinalOffsets, List.mem_cons, List.not_mem_nil, or_false] at hd
    rcases hd with rfl | rfl | rfl | rfl | rfl | rfl
    · rw [offsetP_some (addComp_one_some' hxb) (addComp_zero_some' hyb) (addComp_zero_some' hzb)]
      simp only [Option.some.injEq, exists_eq_left']
      exact memC_iff_mem_below hm (show p.x + 1 < 32768 by omega)
        (show p.y < 32768 by omega) (show p.z < 32768 by omega)
    · by_cases h0 : p.x = 0
      · rw [offsetP_none_x (addComp_neg_one_none (Or.inl (by omega)))]
        simp
      · rw [offsetP_some (addComp_neg_one_some' (by omega) hxb) (addComp_zero_some' hyb)
          (addComp_zero_some' hzb)]
        simp only [Option.some.injEq, exists_eq_left']
        exact memC_iff_mem_below hm (show p.x - 1 < 32768 by omega)
          (show p.y < 32768 by omega) (show p.z < 32768 by omega)
    · rw [offsetP_some (addComp_zero_some' hxb) (addComp_one_some' hyb) (addComp_zero_some' hzb)]
      simp only [Option.some.injEq, exists_eq_left']
      exact memC_iff_mem_below hm (show p.x < 32768 by omega)
        (show p.y + 1 < 32768 by omega) (show p.z < 32768 by omega)
    · by_cases h0 : p.y = 0
      · rw [offsetP_none_y (addComp_neg_one_none (Or.inl (by omega)))]
        simp
      · rw [offsetP_some (addComp_zero_some' hxb) (addComp_neg_one_some' (by omega) hyb)
          (addComp_zero_some' hzb)]
        simp only [Option.some.injEq, exists_eq_left']
        exact memC_iff_mem_below hm (show p.x < 32768 by omega)
          (show p.y - 1 < 32768 by omega) (show p.z < 32768 by omega)
    · rw [offsetP_some (addComp_zero_some' hxb) (addComp_zero_some' hyb) (addComp_one_some' hzb)]
      simp only [Option.some.injEq, exists_eq_left']
      exact memC_iff_mem_below hm (show p.x < 32768 by omega)
        (show p.y < 32768 by omega) (show p.z + 1 < 32768 by omega)
    · by_cases h0 : p.z = 0
      · rw [offsetP_none_z (addComp_neg_one_none (Or.inl (by omega)))]
        simp
      · rw [offsetP_some (addComp_zero_some' hxb) (addComp_zero_some' hyb)
          (addComp_neg_one_some' (by omega) hzb)]
        simp only [Option.some.injEq, exists_eq_left']
        exact memC_iff_mem_below hm (show p.x < 32768 by omega)
          (show p.y < 32768 by omega) (show p.z - 1 < 32768 by omega)
  cases h1 : hasAllNeighborsC m p <;> cases h2 : hasAllNeighbors m p <;> simp_all

/-- One erosion step of the program equals one exact erosion step on an
alias-free set. -/
lemma insetC_eq_below {m : Finset GPos}
    (hm : ∀ q ∈ m, q.x < 32767 ∧ q.y < 32767 ∧ q.z < 32767) :
    insetC m = insetS m := by
  have hm' : ∀ q ∈ m, q.x < 32768 ∧ q.y < 32768 ∧ q.z < 32768 := by
    intro q hq
    obtain ⟨a, b, c⟩ := hm q hq
    exact ⟨by omega, by omega, by omega⟩
  rw [insetC, insetS]
  apply Finset.filter_congr
  intro p hp
  obtain ⟨h1, h2, h3⟩ := hm p hp
  show hasAllNeighborsC m p = true ↔ hasAllNeighbors m p = true
  rw [hasAllNeighborsC_eq_below hm' h1 h2 h3]

lemma insetS_iter_subset (m : Finset GPos) (k : Nat) : insetS^[k] m ⊆ m := by
  induction k with
  | zero => simp
  | succ k ih =>
    rw [Function.iterate_succ_apply']
    exact (insetS_subset _).trans ih

/-- All iterates of the program's erosion equal the exact ones on an
alias-free input. -/
lemma insetC_iter_eq_below {m : Finset GPos}
    (hm : ∀ q ∈ m, q.x < 32767 ∧ q.y < 32767 ∧ q.z < 32767) (k : Nat) :
    insetC^[k] m = insetS^[k] m := by
  induction k with
  | zero => rfl
  | succ k ih =>
    rw [Function.iterate_succ_apply', Function.iterate_succ_apply', ih]
    exact insetC_eq_below (fun q hq => hm q (insetS_iter_subset m k hq))

lemma insetS_iter_card (m : Finset GPos) (k : Nat) :
    (insetS^[k] m).card + k ≤ m.card ∨ insetS^[k] m = ∅ := by
  induction k with
  | zero =>
    left
    simp
  | succ k ih =>
    rw [Function.iterate_succ_apply']
    rcases ih with ih | ih
    · by_cases hE : insetS^[k] m = ∅
      · right
        rw [hE]
        simp [insetS]
      · left
        have := Finset.card_lt_card (insetS_ssubset _ (Finset.nonempty_iff_ne_empty.mpr hE))
        omega
    · right
      rw [ih]
      simp [insetS]

/-- Exact erosion empties any set within `card` iterations. -/
lemma insetS_iter_card_empty (m : Finset GPos) : insetS^[m.card] m = ∅ := by
  rcases insetS_iter_card m m.card with h | h
  · exact Finset.card_eq_zero.mp (by omega)
  · exact h

lemma mk_mem_aliasTorus {a b c : Nat} (h1 : 32768 ≤ a) (h2 : a ≤ 65535)
    (h3 : 32768 ≤ b) (h4 : b ≤ 65535) (h5 : 32768 ≤ c) (h6 : c ≤ 65535) :
    (⟨a, b, c⟩ : GPos) ∈ aliasTorus := by
  rw [aliasTorus, Finset.mem_image]
  refine ⟨(a, b, c), ?_, rfl⟩
  rw [Finset.mem_product, Finset.mem_product, Finset.mem_Icc, Finset.mem_Icc, Finset.mem_Icc]
  exact ⟨⟨h1, h2⟩, ⟨h3, h4⟩, ⟨h5, h6⟩⟩

set_option linter.constructorNameAsVariable false in
lemma mem_aliasTorus_bounds {p : GPos} (hp : p ∈ aliasTorus) :
    (32768 ≤ p.x ∧ p.x ≤ 65535) ∧ (32768 ≤ p.y ∧ p.y ≤ 65535) ∧
      (32768 ≤ p.z ∧ p.z ≤ 65535) := by
  rw [aliasTorus, Finset.mem_image] at hp
  obtain ⟨t, ht, rfl⟩ := hp
  rw [Finset.mem_product, Finset.mem_product, Finset.mem_Icc, Finset.mem_Icc,
    Finset.mem_Icc] at ht
  exact ⟨⟨ht.1.1, ht.1.2⟩, ⟨ht.2.1.1, ht.2.1.2⟩, ⟨ht.2.2.1, ht.2.2.2⟩⟩

lemma mk_sameKey {a b c d e f : Nat} (h1 : a % 32768 = d % 32768)
    (h2 : b % 32768 = e % 32768) (h3 : c % 32768 = f % 32768) :
    sameKey (⟨a, b, c⟩ : GPos) ⟨d, e, f⟩ :=
  sameKey_of_congr h1 h2 h3

-- The torus is a fixed point of the program's erosion: every face probe
-- from a torus voxel either lands inside the torus or wraps to a position
-- whose find key aliases a torus voxel (32767 aliases 65535, 65536
-- aliases 32768).
set_option maxHeartbeats 1600000 in
lemma insetC_aliasTorus : insetC aliasTorus = aliasTorus := by
  rw [insetC, Finset.filter_eq_self]
  intro p hp
  obtain ⟨⟨hx1, hx2⟩, ⟨hy1, hy2⟩, ⟨hz1, hz2⟩⟩ := mem_aliasTorus_bounds hp
  have hxb : p.x < 2147483648 := by omega
  have hyb : p.y < 2147483648 := by omega
  have hzb : p.z < 2147483648 := by omega
  rw [hasAllNeighborsC_iff]
  intro d hd
  simp only [cardinalOffsets, List.mem_cons, List.not_mem_nil, or_false] at hd
  rcases hd with rfl | rfl | rfl | rfl | rfl | rfl
  · refine ⟨⟨p.x + 1, p.y, p.z⟩,
      offsetP_some (addComp_one_some' hxb) (addComp_zero_some' hyb) (addComp_zero_some' hzb), ?_⟩
    by_cases htop : p.x = 65535
    · exact decide_eq_true ⟨⟨32768, p.y, p.z⟩,
        mk_mem_aliasTorus (by omega) (by omega) (by omega) (by omega) (by omega) (by omega),
        mk_sameKey (by omega) (by omega) (by omega)⟩
    · exact decide_eq_true ⟨⟨p.x + 1, p.y, p.z⟩,
        mk_mem_aliasTorus (by omega) (by omega) (by omega) (by omega) (by omega) (by omega),
        mk_sameKey (by omega) (by omega) (by omega)⟩
  · refine ⟨⟨p.x - 1, p.y, p.z⟩,
      offsetP_some (addComp_neg_one_some' (by omega) hxb) (addComp_zero_some' hyb)
        (addComp_zero_some' hzb), ?_⟩
    by_cases hbot : p.x = 32768
    · exact decide_eq_true ⟨⟨65535, p.y, p.z⟩,
        mk_mem_aliasTorus (by omega) (by omega) (by omega) (by omega) (by omega) (by omega),
        mk_sameKey (by omega) (by omega) (by omega)⟩
    · exact decide_eq_true ⟨⟨p.x - 1, p.y, p.z⟩,
        mk_mem_aliasTorus (by omega) (by omega) (by omega) (by omega) (by omega) (by omega),
        mk_sameKey (by omega) (by omega) (by omega)⟩
  · refine ⟨⟨p.x, p.y + 1, p.z⟩,
      offsetP_some (addComp_zero_some' hxb) (addComp_one_some' hyb) (addComp_zero_some' hzb), ?_⟩
    by_cases htop : p.y = 65535
    · exact decide_eq_true ⟨⟨p.x, 32768, p.z⟩,
        mk_mem_aliasTorus (by omega) (by omega) (by omega) (by omega) (by omega) (by omega),
        mk_sameKey (by omega) (by omega) (by omega)⟩
    · exact decide_eq_true ⟨⟨p.x, p.y + 1, p.z⟩,
        mk_mem_aliasTorus (by omega) (by omega) (by omega) (by omega) (by omega) (by omega),
        mk_sameKey (by omega) (by omega) (by omega)⟩
  · refine ⟨⟨p.x, p.y - 1, p.z⟩,
      offsetP_some (addComp_zero_some' hxb) (addComp_neg_one_some' (by omega) hyb)
        (addComp_zero_some' hzb), ?_⟩
    by_cases hbot : p.y = 32768
    · exact decide_eq_true ⟨⟨p.x, 65535, p.z⟩,
        mk_mem_aliasTorus (by omega) (by omega) (by omega) (by omega) (by omega) (by omega),
        mk_sameKey (by omega) (by omega) (by omega)⟩
    · exact decide_eq_true ⟨⟨p.x, p.y - 1, p.z⟩,
        mk_mem_aliasTorus (by omega) (by omega) (by omega) (by omega) (by omega) (by omega),
        mk_sameKey (by omega) (by omega) (by omega)⟩
  · refine ⟨⟨p.x, p.y, p.z + 1⟩,
      offsetP_some (addComp_zero_some' hxb) (addComp_zero_some' hyb) (addComp_one_some' hzb), ?_⟩
    by_cases htop : p.z = 65535
    · exact decide_eq_true ⟨⟨p.x, p.y, 32768⟩,
        mk_mem_aliasTorus (by omega) (by omega) (by omega) (by omega) (by omega) (by omega),
        mk_sameKey (by omega) (by omega) (by omega)⟩
    · exact decide_eq_true ⟨⟨p.x, p.y, p.z + 1⟩,
        mk_mem_aliasTorus (by omega) (by omega) (by omega) (by omega) (by omega) (by omega),
        mk_sameKey (by omega) (by omega) (by omega)⟩
  · refine ⟨⟨p.x, p.y, p.z - 1⟩,
      offsetP_some (addComp_zero_some' hxb) (addComp_zero_some' hyb)
        (addComp_neg_one_some' (by omega) hzb), ?_⟩
    by_cases hbot : p.z = 32768
    · exact decide_eq_true ⟨⟨p.x, p.y, 65535⟩,
        mk_mem_aliasTorus (by omega) (by omega) (by omega) (by omega) (by omega) (by omega),
        mk_sameKey (by omega) (by omega) (by omega)⟩
    · exact decide_eq_true ⟨⟨p.x, p.y, p.z - 1⟩,
        mk_mem_aliasTorus (by omega) (by omega) (by omega) (by omega) (by omega) (by omega),
        mk_sameKey (by omega) (by omega) (by omega)⟩

lemma insetC_iter_aliasTorus (k : Nat) : insetC^[k] aliasTorus = aliasTorus :=
  Function.iterate_fixed insetC_aliasTorus k

lemma aliasTorus_ne_empty : aliasTorus ≠ ∅ :=
  Finset.ne_empty_of_mem
    (mk_mem_aliasTorus (le_refl _) (by norm_num) (le_refl _) (by norm_num) (le_refl _)
      (by norm_num))

lemma tripleMk_inj : Function.Injective (fun t : Nat × Nat × Nat => (⟨t.1, t.2.1, t.2.2⟩ : GPos)) := by
  rintro ⟨a, b, c⟩ ⟨d, e, f⟩ h
  have h' : (⟨a, b, c⟩ : GPos) = ⟨d, e, f⟩ := h
  rw [GPos.mk.injEq] at h'
  obtain ⟨r1, r2, r3⟩ := h'
  simp_all

lemma aliasTorus_card : aliasTorus.card = 32768 ^ 3 := by
  rw [aliasTorus, Finset.card_image_of_injective _ tripleMk_inj, Finset.card_product,
    Finset.card_product, Nat.card_Icc]
  norm_num

/-- C4 counterexample: the full-period torus - every position whose three
coordinates lie in `[32768, 65535]` - is a non-empty set of `32768 ^ 3`
voxels that the program's erosion maps to itself: each face probe either
lands inside the torus or wraps to a key that `find` conflates with a
torus voxel, because coordinates congruent modulo `2^15` per axis share
their chunk and local Morton codes. Every erosion iterate therefore stays
the full torus, so the `while (!cur.empty()) cur = inset(cur);` loop of
`detect_core` never exits and `core_expanding_convex_decomposition` does
not terminate on this input. -/
theorem cecd_nonterminating_on_alias_torus :
    aliasTorus ≠ ∅ ∧ insetC aliasTorus = aliasTorus ∧
      (∀ k, insetC^[k] aliasTorus = aliasTorus) ∧ aliasTorus.card = 32768 ^ 3 :=
  ⟨aliasTorus_ne_empty, insetC_aliasTorus, insetC_iter_aliasTorus, aliasTorus_card⟩

/-- C4 (amended): on voxel sets whose coordinates all stay below `32767`
no find-key aliasing can occur: the program's erosion coincides with
exact-membership erosion at every iterate and empties the set within
`|V|` steps, so the erosion loop of `detect_core` terminates there; and
the CECD outer loop always emits at most `|V|` layers, each containing
the non-empty core that is removed from the remaining set. -/
theorem cecd_terminates_on_alias_free_domain :
    (∀ m : Finset GPos, (∀ p ∈ m, p.x < 32767 ∧ p.y < 32767 ∧ p.z < 32767) →
      (∀ k, insetC^[k] m = insetS^[k] m) ∧ insetC^[m.card] m = ∅) ∧
    (∀ m : Finset GPos, (cecd m).length ≤ m.card) := by
  constructor
  · intro m hm
    refine ⟨insetC_iter_eq_below hm, ?_⟩
    rw [insetC_iter_eq_below hm]
    exact insetS_iter_card_empty m
  · exact cecd_length_le_card

end VoxelSpec
